import Mathlib

/-!
Verification development for the semantic-validation and symbol-resolution
engine of esphomeyaml (src/esphomeyaml/config.py).  The definitions below are
a shallow embedding of that module: the configuration tree, the component
descriptors probed via getattr/hasattr, the validate_config orchestrator,
the do_id_pass symbol resolver, load_config's fatal gates, and read_config's
error-display grouping.  External collaborators (the YAML parser, the
component registry realised through importlib, the voluptuous schemas) are
modelled as parameters: a registry function, schema functions returning
Except (Except.error standing for a raised vol.Invalid), and the parsed tree
as input data.  Python objects are modelled with value semantics.
-/

namespace Esphome

/-- Identifier node mirroring core.ID: a declaration flag, an optional
explicit name, and an optional type tag. -/
structure Ident where
  is_declaration : Bool
  id : Option String
  type : Option String
deriving DecidableEq

/-- Configuration tree values as the validator sees them: scalars, ordered
mappings, sequences, identifier nodes (core.ID) and lambda fragments
(core.Lambda, carrying its requires_ids). -/
inductive CValue where
  | vstr : String → CValue
  | vint : Int → CValue
  | vbool : Bool → CValue
  | vnone : CValue
  | vid : Ident → CValue
  | vlam : List Ident → CValue
  | vlist : List CValue → CValue
  | vdict : List (String × CValue) → CValue

/-- First-match lookup in an ordered mapping (Python dict access). -/
def lookupKey : List (String × CValue) → String → Option CValue
  | [], _ => none
  | (k, v) :: rest, d => if k = d then some v else lookupKey rest d

/-- Python `key in dict`. -/
def hasKey (m : List (String × CValue)) (d : String) : Bool :=
  (lookupKey m d).isSome

/-- Python str() rendering for the scalar values the code formats into
messages; container reprs are not needed by any claim. -/
def pyStr : CValue → String
  | CValue.vstr s => s
  | CValue.vint n => toString n
  | CValue.vbool true => "True"
  | CValue.vbool false => "False"
  | CValue.vnone => "None"
  | _ => "<object>"

/-- Python truthiness for the values `parent or {}` can meet. -/
def pyFalsy : CValue → Bool
  | CValue.vnone => true
  | CValue.vbool b => !b
  | CValue.vint n => decide (n = 0)
  | CValue.vstr s => s.isEmpty
  | CValue.vlist xs => xs.isEmpty
  | CValue.vdict kvs => kvs.isEmpty
  | CValue.vid _ => false
  | CValue.vlam _ => false

/-- Python iteration over a value: lists yield their elements, dicts their
keys, strings their characters; scalars raise TypeError (none here). -/
def pyIter : CValue → Option (List CValue)
  | CValue.vlist xs => some xs
  | CValue.vdict kvs => some (kvs.map (fun kv => CValue.vstr kv.1))
  | CValue.vstr s => some (s.data.map (fun c => CValue.vstr (String.mk [c])))
  | _ => none

/-- Component descriptor, an explicit record of the four attributes the
orchestrator probes on a component module: ESP_PLATFORMS, DEPENDENCIES,
CONFIG_SCHEMA and PLATFORM_SCHEMA (none = attribute absent). -/
structure Component where
  esp_platforms : Option (List String)
  dependencies : Option (List String)
  config_schema : Option (CValue → Except String CValue)
  platform_schema : Option (CValue → Except String CValue)

/-- Core metadata domain name (CONF_ESPHOMEYAML). -/
def CONF_ESPHOMEYAML : String := "esphomeyaml"

/-- Network-configuration domain name (CONF_WIFI). -/
def CONF_WIFI : String := "wifi"

/-- The fixed required set of top-level domains (config.py lines 44-46). -/
def REQUIRED_COMPONENTS : List String := [CONF_ESPHOMEYAML, CONF_WIFI]

/-- Modelled from the spec: the 32-bit family name from esphomeyaml.const
(const.py is outside the given sources; the spec fixes the two families). -/
def ESP_PLATFORM_ESP32 : String := "ESP32"

/-- Modelled from the spec: the 8-bit family name from esphomeyaml.const. -/
def ESP_PLATFORM_ESP8266 : String := "ESP8266"

/-- The default supported-platform set: all target platforms. -/
def ESP_PLATFORMS : List String := [ESP_PLATFORM_ESP32, ESP_PLATFORM_ESP8266]

/-- An accumulated diagnostic: message, owning domain (nullable) and the
originating node (nullable), exactly the add_error triple. -/
structure ErrorRecord where
  message : String
  domain : Option String
  node : Option CValue

/-- Projection of an error record to its order-relevant display fields;
the node field is a by-reference location annotation. -/
def eProj (e : ErrorRecord) : String × Option String :=
  (e.message, e.domain)

def mkCompNotFound (d : String) : String := "Component not found: " ++ d

def mkUnsupported (d esp : String) : String :=
  "Component " ++ d ++ " doesn't support " ++ esp ++ "."

def mkMissingDep (d dep : String) : String :=
  "Component " ++ d ++ " requires component " ++ dep

def mkPlatMissingDep (d p dep : String) : String :=
  "Platform " ++ d ++ "." ++ p ++ " requires component " ++ dep

def mkPlatUnsupported (d p esp : String) : String :=
  "Platform " ++ d ++ "." ++ p ++ " doesn't support " ++ esp ++ "."

def mkNotDict : String := "Platform schemas must have 'platform:' key"

def mkNoPlatform (d : String) : String := "No platform specified for " ++ d

def mkPlatformNotFound (d p : String) : String :=
  "Platform not found: " ++ d ++ "." ++ p

/-- Rendering of a schema violation (_format_config_error): the humanized
voluptuous text is the carried message; nodes without provenance render the
placeholder location, and list configs get no location suffix. -/
def formatConfigError (msg : String) (domain : String) (config : CValue) : String :=
  let base := "Invalid config for [" ++ domain ++ "]: " ++ msg ++ "."
  match config with
  | CValue.vlist _ => base
  | _ => base ++ " (See ?, line ?). "

/-- One platform-style sequence entry (validate_config lines 213-248):
the errors it records and the validated value it appends, if any.  The
source checks the platform descriptor's DEPENDENCIES before its
ESP_PLATFORMS. -/
def processPlatformEntry (reg : String → Option Component) (esp : String)
    (allNames : List String) (domain : String) (p_config : CValue) :
    List ErrorRecord × Option CValue :=
  match p_config with
  | CValue.vdict kvs =>
    match lookupKey kvs "platform" with
    | none => ([⟨mkNoPlatform domain, none, none⟩], none)
    | some CValue.vnone => ([⟨mkNoPlatform domain, none, none⟩], none)
    | some pv =>
      let p_name := pyStr pv
      match reg (domain ++ "." ++ p_name) with
      | none => ([⟨mkPlatformNotFound domain p_name, none, none⟩], none)
      | some platform =>
        let deps := platform.dependencies.getD []
        let missing := deps.filter (fun dep => !(allNames.contains dep))
        if missing.isEmpty then
          let plats := platform.esp_platforms.getD ESP_PLATFORMS
          if plats.contains esp then
            match platform.platform_schema with
            | some sch =>
              match sch p_config with
              | Except.ok v => ([], some v)
              | Except.error ex =>
                ([⟨formatConfigError ex (domain ++ "." ++ p_name) p_config,
                   some (domain ++ "." ++ p_name), some p_config⟩], none)
            | none => ([], none)
          else ([⟨mkPlatUnsupported domain p_name esp, none, none⟩], none)
        else
          (missing.map (fun dep => ⟨mkPlatMissingDep domain p_name dep, none, none⟩),
           none)
  | _ => ([⟨mkNotDict, none, none⟩], none)

/-- The platform-style sequence loop (lines 212-249): iterate the raw value,
collect per-entry errors and validated entries in order; the resulting
mapping entry is always the collected list.  Except.error models the
uncaught TypeError when the raw value is not iterable. -/
def platformPart (reg : String → Option Component) (esp : String)
    (allNames : List String) (domain : String) (conf : CValue) :
    Except String (List ErrorRecord × Option CValue) :=
  match pyIter conf with
  | none => Except.error ("TypeError: " ++ pyStr conf ++ " is not iterable")
  | some entries =>
    let outs := entries.map (processPlatformEntry reg esp allNames domain)
    Except.ok ((outs.map Prod.fst).flatten,
               some (CValue.vlist (outs.filterMap Prod.snd)))

/-- The `if conf is None: conf = {}` normalisation (lines 180-181). -/
def normConf : CValue → CValue
  | CValue.vnone => CValue.vdict []
  | c => c

/-- Per-domain processing (validate_config lines 180-249) for one non-core
domain: the errors it records and its optional result-mapping entry. -/
def processDomain (reg : String → Option Component) (esp : String)
    (allNames : List String) (domain : String) (conf0 : CValue) :
    Except String (List ErrorRecord × Option CValue) :=
  let conf := normConf conf0
  match reg domain with
  | none => Except.ok ([⟨mkCompNotFound domain, none, none⟩], none)
  | some component =>
    let plats := component.esp_platforms.getD ESP_PLATFORMS
    if plats.contains esp then
      let deps := component.dependencies.getD []
      let missing := deps.filter (fun dep => !(allNames.contains dep))
      if missing.isEmpty then
        match component.config_schema with
        | some sch =>
          match sch conf with
          | Except.error ex =>
            Except.ok ([⟨formatConfigError ex domain conf, some domain, some conf⟩],
                       none)
          | Except.ok validated =>
            match component.platform_schema with
            | none => Except.ok ([], some validated)
            | some _ => platformPart reg esp allNames domain conf
        | none =>
          match component.platform_schema with
          | none => Except.ok ([], none)
          | some _ => platformPart reg esp allNames domain conf
      else
        Except.ok
          (missing.map (fun dep => ⟨mkMissingDep domain dep, none, none⟩), none)
    else Except.ok ([⟨mkUnsupported domain esp, none, none⟩], none)

/-- The per-domain loop (lines 177-249): skips the core domain, accumulates
errors and result entries in input order (input keys are unique, being a
parsed Python dict). -/
def domainLoop (reg : String → Option Component) (esp : String)
    (allNames : List String) :
    List (String × CValue) → Except String (List ErrorRecord × List (String × CValue))
  | [] => Except.ok ([], [])
  | (domain, conf) :: rest =>
    if domain = CONF_ESPHOMEYAML then domainLoop reg esp allNames rest
    else
      match processDomain reg esp allNames domain conf with
      | Except.error e => Except.error e
      | Except.ok (errs, entry) =>
        match domainLoop reg esp allNames rest with
        | Except.error e => Except.error e
        | Except.ok (errs2, entries2) =>
          Except.ok (errs ++ errs2,
            match entry with
            | some v => (domain, v) :: entries2
            | none => entries2)

/-- A discovered identifier occurrence: the node, its structural path and its
containing node (iter_ids yields exactly this triple, with the parent already
normalised by `parent or` to the empty dict when falsy). -/
structure IdItem where
  ident : Ident
  pfx : List String
  par : CValue

/-- The `parent or` normalisation applied before yielding. -/
def normPar (par : CValue) : CValue :=
  if pyFalsy par then CValue.vdict [] else par

mutual

/-- iter_ids (lines 114-129): depth-first discovery of every identifier and
every lambda fragment's requires set, mapping keys in insertion order, then
sequence items by index. -/
def iterV (pfx : List String) (par : CValue) : CValue → List IdItem
  | CValue.vid i => [⟨i, pfx, normPar par⟩]
  | CValue.vlam rs => rs.map (fun i => ⟨i, pfx, normPar par⟩)
  | CValue.vlist xs => iterL pfx (CValue.vlist xs) 0 xs
  | CValue.vdict kvs => iterD pfx (CValue.vdict kvs) kvs
  | _ => []

def iterL (pfx : List String) (own : CValue) (i : Nat) : List CValue → List IdItem
  | [] => []
  | x :: rest => iterV (pfx ++ [toString i]) own x ++ iterL pfx own (i + 1) rest

def iterD (pfx : List String) (own : CValue) : List (String × CValue) → List IdItem
  | [] => []
  | (k, v) :: rest => iterV (pfx ++ [k]) own v ++ iterD pfx own rest

end

mutual

/-- Number of identifier occurrences in a value. -/
def nIdsV : CValue → Nat
  | CValue.vid _ => 1
  | CValue.vlam rs => rs.length
  | CValue.vlist xs => nIdsL xs
  | CValue.vdict kvs => nIdsD kvs
  | _ => 0

def nIdsL : List CValue → Nat
  | [] => 0
  | x :: rest => nIdsV x + nIdsL rest

def nIdsD : List (String × CValue) → Nat
  | [] => 0
  | (_, v) :: rest => nIdsV v + nIdsD rest

end

/-- Replace a lambda's identifiers from a stream (helper for setV). -/
def zipIds : List Ident → List Ident → List Ident × List Ident
  | [], ns => ([], ns)
  | r :: rs, [] => (r :: rs, [])
  | _ :: rs, n :: ns =>
    let p := zipIds rs ns
    (n :: p.1, p.2)

mutual

/-- The in-place identifier mutations of do_id_pass, reflected structurally:
replace each identifier occurrence, in discovery order, by the next element
of the stream (the stream run dry leaves nodes unchanged). -/
def setV : CValue → List Ident → CValue × List Ident
  | CValue.vid i, ns =>
    match ns with
    | n :: rest => (CValue.vid n, rest)
    | [] => (CValue.vid i, [])
  | CValue.vlam rs, ns =>
    let p := zipIds rs ns
    (CValue.vlam p.1, p.2)
  | CValue.vlist xs, ns =>
    let p := setL xs ns
    (CValue.vlist p.1, p.2)
  | CValue.vdict kvs, ns =>
    let p := setD kvs ns
    (CValue.vdict p.1, p.2)
  | v, ns => (v, ns)

def setL : List CValue → List Ident → List CValue × List Ident
  | [], ns => ([], ns)
  | x :: rest, ns =>
    let p := setV x ns
    let q := setL rest p.2
    (p.1 :: q.1, q.2)

def setD : List (String × CValue) → List Ident → List (String × CValue) × List Ident
  | [], ns => ([], ns)
  | (k, v) :: rest, ns =>
    let p := setV v ns
    let q := setD rest p.2
    ((k, p.1) :: q.1, q.2)

end

/-- Python '.'.join. -/
def joinDots : List String → String
  | [] => ""
  | [s] => s
  | s :: rest => s ++ "." ++ joinDots rest

def dupMsg (n : String) : String := "ID " ++ n ++ " redefined!"

def findMsg (n : String) : String := "Couldn't find ID " ++ n

def typeMsg (ty : String) : String := "Couldn't resolve ID for type " ++ ty

/-- The classify/declare loop of do_id_pass (lines 135-142): file each
identifier as declaration or reference in discovery order, dropping an
explicitly named declaration whose name an already-accepted declaration
carries and recording the redefinition. -/
def declGo (ds ss : List IdItem) (es : List ErrorRecord) :
    List IdItem → List IdItem × List IdItem × List ErrorRecord
  | [] => (ds, ss, es)
  | it :: rest =>
    if it.ident.is_declaration then
      match it.ident.id with
      | some n =>
        if ds.any (fun v => v.ident.id = some n) then
          declGo ds ss (es ++ [⟨dupMsg n, some (joinDots it.pfx), some it.par⟩]) rest
        else declGo (ds ++ [it]) ss es rest
      | none => declGo (ds ++ [it]) ss es rest
    else declGo ds (ss ++ [it]) es rest

/-- Longest length among a list of strings. -/
def maxLen (l : List String) : Nat :=
  l.foldr (fun s m => max s.length m) 0

/-- Modelled from the spec: core.ID.resolve's name generator (core.py is
outside the given sources; the spec only demands a generated name unique
against the accepted-name set).  This generator picks a name strictly longer
than every currently used name. -/
def freshTok (used : List String) : String :=
  String.mk (List.replicate (maxLen used + 1) 'i')

/-- The resolve loop (lines 144-145): each accepted declaration in order
receives, when unnamed, a generated name unique against all names currently
carried by the accepted declarations. -/
def resolveGo (done : List IdItem) : List IdItem → List IdItem
  | [] => done
  | d :: rest =>
    match d.ident.id with
    | some _ => resolveGo (done ++ [d]) rest
    | none =>
      let used :=
        (done.map (fun v => v.ident.id) ++ rest.map (fun v => v.ident.id)).filterMap
          (fun o => o)
      resolveGo
        (done ++ [⟨⟨d.ident.is_declaration, some (freshTok used), d.ident.type⟩,
                   d.pfx, d.par⟩]) rest

/-- One reference of the search loop (lines 148-155): a named reference must
match an accepted declaration's name; an unnamed typed reference binds to the
first accepted declaration of matching type. -/
def searchStep (ds : List IdItem) (it : IdItem) : IdItem × List ErrorRecord :=
  let es1 : List ErrorRecord :=
    match it.ident.id with
    | some n =>
      if ds.any (fun v => v.ident.id = some n) then []
      else [⟨findMsg n, some (joinDots it.pfx), some it.par⟩]
    | none => []
  match it.ident.id with
  | some _ => (it, es1)
  | none =>
    match it.ident.type with
    | none => (it, es1)
    | some ty =>
      let newid :=
        match ds.find? (fun v => v.ident.type = some ty) with
        | some v => v.ident.id
        | none => none
      (⟨⟨it.ident.is_declaration, newid, it.ident.type⟩, it.pfx, it.par⟩,
       es1 ++
         match newid with
         | none => [⟨typeMsg ty, some (joinDots it.pfx), some it.par⟩]
         | some _ => [])

/-- The search loop over all references in discovery order. -/
def searchGo (ds : List IdItem) (acc : List IdItem) (es : List ErrorRecord) :
    List IdItem → List IdItem × List ErrorRecord
  | [] => (acc, es)
  | it :: rest =>
    let p := searchStep ds it
    searchGo ds (acc ++ [p.1]) (es ++ p.2) rest

/-- Reassembly of the post-pass identifiers in discovery order: accepted
declarations take their resolved versions, dropped duplicates keep their
original node, references take their searched versions.  The duplicate test
re-runs the declare loop's check against the accepted-so-far originals. -/
def assembleGo (accIds : List Ident) :
    List IdItem → List Ident → List Ident → List Ident
  | [], _, _ => []
  | it :: rest, rsS, ssS =>
    if it.ident.is_declaration then
      match it.ident.id with
      | some n =>
        if accIds.any (fun v => v.id = some n) then
          it.ident :: assembleGo accIds rest rsS ssS
        else
          match rsS with
          | r :: rsS2 => r :: assembleGo (accIds ++ [it.ident]) rest rsS2 ssS
          | [] => it.ident :: assembleGo (accIds ++ [it.ident]) rest [] ssS
      | none =>
        match rsS with
        | r :: rsS2 => r :: assembleGo (accIds ++ [it.ident]) rest rsS2 ssS
        | [] => it.ident :: assembleGo (accIds ++ [it.ident]) rest [] ssS
    else
      match ssS with
      | s :: ssS2 => s :: assembleGo accIds rest rsS ssS2
      | [] => it.ident :: assembleGo accIds rest rsS []

/-- do_id_pass (lines 132-155) over the flattened discovery list: the final
identifier carried at each occurrence, and the appended errors (declare-phase
redefinitions first, then search-phase failures, each in discovery order). -/
def idPassCore (items : List IdItem) : List Ident × List ErrorRecord :=
  let d := declGo [] [] [] items
  let rs := resolveGo [] d.1
  let s := searchGo rs [] [] d.2.1
  (assembleGo [] items (rs.map (fun v => v.ident)) (s.1.map (fun v => v.ident)),
   d.2.2 ++ s.2)

/-- do_id_pass applied to the result mapping: iter_ids walks the mapping
(each top-level key the first path segment, the mapping itself the parent),
identifier nodes are mutated in place, errors are appended. -/
def doIdPassD (m : List (String × CValue)) :
    List (String × CValue) × List ErrorRecord :=
  let items := iterD [] (CValue.vdict m) m
  let r := idPassCore items
  ((setD m r.1).1, r.2)

/-- The ValidationResult: ordered mapping of validated domains plus the
accumulated error sequence (class Config, lines 103-111). -/
structure Config where
  map : List (String × CValue)
  errors : List ErrorRecord

/-- The core-domain validation step (lines 172-175): success stores the
validated core section, a raised vol.Invalid is caught, formatted and
recorded non-fatally. -/
def coreStep (coreSchema : CValue → Except String CValue)
    (config : List (String × CValue)) :
    List ErrorRecord × List (String × CValue) :=
  match coreSchema ((lookupKey config CONF_ESPHOMEYAML).getD CValue.vnone) with
  | Except.ok v => ([], [(CONF_ESPHOMEYAML, v)])
  | Except.error ex =>
    ([⟨formatConfigError ex CONF_ESPHOMEYAML (CValue.vdict config),
       some CONF_ESPHOMEYAML, some (CValue.vdict config)⟩],
     [])

/-- validate_config (lines 158-252): the fatal required-domain gate, the core
schema validation, the per-domain loop, then do_id_pass over the result.
The registry and the schemas are the external collaborators, passed as
functions; Except.error models a raised exception (ESPHomeYAMLError for the
fatal gate, TypeError for a non-iterable platform-style value). -/
def validate_config (reg : String → Option Component) (esp : String)
    (coreSchema : CValue → Except String CValue)
    (config : List (String × CValue)) : Except String Config :=
  match REQUIRED_COMPONENTS.find? (fun r => !hasKey config r) with
  | some r => Except.error ("Component " ++ r ++ " is required for esphomeyaml.")
  | none =>
    let allNames := config.map Prod.fst
    let core := coreStep coreSchema config
    match domainLoop reg esp allNames config with
    | Except.error e => Except.error e
    | Except.ok (les, entries) =>
      let m := core.2 ++ entries
      let r := doIdPassD m
      Except.ok ⟨r.1, core.1 ++ les ++ r.2⟩

/-- Uppercasing plus the 8266/32 substring normalisation applied to the raw
platform string (load_config lines 290-295). -/
def isPrefOf : List Char → List Char → Bool
  | [], _ => true
  | _ :: _, [] => false
  | a :: as, b :: bs => a = b && isPrefOf as bs

def containsSubL (pat : List Char) : List Char → Bool
  | [] => isPrefOf pat []
  | b :: rest => isPrefOf pat (b :: rest) || containsSubL pat rest

/-- Python `pat in s` on strings. -/
def containsSub (s pat : String) : Bool :=
  containsSubL pat.data s.data

/-- The platform-string normalisation of load_config. -/
def normalizeEsp (s : String) : String :=
  let u := s.toUpper
  let u := if containsSub u "8266" then ESP_PLATFORM_ESP8266 else u
  if containsSub u "32" then ESP_PLATFORM_ESP32 else u

/-- load_config (lines 278-310): the unreadable-source and missing-section
fatal gates, the missing platform/board fatal gates, the platform
normalisation, then validate_config.  The YAML source is an Option (none =
unreadable file); the simplify-flag coercion only feeds a code-generation
global and is not modelled.  A non-mapping core section crashes at the
membership test or the subscription; both surface as an abort. -/
def load_config (reg : String → Option Component)
    (coreSchema : CValue → Except String CValue) (path : String)
    (raw : Option (List (String × CValue))) : Except String Config :=
  match raw with
  | none => Except.error ("Could not read configuration file at " ++ path)
  | some config =>
    match lookupKey config CONF_ESPHOMEYAML with
    | none => Except.error "No esphomeyaml section in config"
    | some coreConf =>
      match coreConf with
      | CValue.vdict kv =>
        match lookupKey kv "platform" with
        | none => Except.error "esphomeyaml.platform not specified."
        | some pv =>
          let esp := normalizeEsp (pyStr pv)
          match lookupKey kv "board" with
          | none => Except.error "esphomeyaml.board not specified."
          | some _ => validate_config reg esp coreSchema config
      | _ => Except.error "TypeError: core section is not a mapping"

/-- get_component with the per-process cache (lines 65-79): a cached module
is returned as is; otherwise the registry (importlib) answers and a
successful lookup is memoised. -/
def get_component (reg : String → Option Component)
    (cache : List (String × Component)) (domain : String) :
    Option Component × List (String × Component) :=
  match cache.find? (fun kv => kv.1 = domain) with
  | some kv => (some kv.2, cache)
  | none =>
    match reg domain with
    | some c => (some c, cache ++ [(domain, c)])
    | none => (none, cache)

/-- A cache state every entry of which agrees with the registry: the only
states the per-process cache can reach when the registry answers are fixed. -/
def cacheConsistent (reg : String → Option Component)
    (cache : List (String × Component)) : Prop :=
  ∀ kv ∈ cache, reg kv.1 = some kv.2

/-- A display line of the failed-config dump: an error message, or the
originating node appended right after its message. -/
inductive DEntry where
  | msg : String → DEntry
  | node : CValue → DEntry

/-- The display label of an error: its domain, with a null (or otherwise
falsy, e.g. empty) domain grouped under the general label. -/
def errLabel (e : ErrorRecord) : String :=
  match e.domain with
  | none => "General Error"
  | some s => if s.isEmpty then "General Error" else s

/-- The display lines one error contributes. -/
def entryOf (e : ErrorRecord) : List DEntry :=
  DEntry.msg e.message ::
    match e.node with
    | some c => [DEntry.node c]
    | none => []

/-- One step of the grouping loop of read_config (lines 355-359). -/
def groupStep (g : List (String × List DEntry)) (e : ErrorRecord) :
    List (String × List DEntry) :=
  let l := errLabel e
  if g.any (fun kv => kv.1 = l) then
    g.map (fun kv => if kv.1 = l then (kv.1, kv.2 ++ entryOf e) else kv)
  else g ++ [(l, entryOf e)]

/-- The grouping of read_config: group content and within-group order are
those of the Python dict of lists it builds; the association order here is
first-seen, but the source keeps the groups in a plain (unordered) Python 2
dict, so nothing in the code ties its display iteration to this order. -/
def groupErrors (errs : List ErrorRecord) : List (String × List DEntry) :=
  errs.foldl groupStep []

/-- The possible display sequences of the loop at line 363: any ordering of
the grouped content, since iteration order of a plain Python 2 dict is
unspecified (hash-table order). -/
def isDisplayOrder (errs : List ErrorRecord)
    (o : List (String × List DEntry)) : Prop :=
  List.Perm o (groupErrors errs)

/-- Direct characterisation of one label's display list: the errors of that
label in first-seen order, each message followed by its node when present. -/
def labelEntries : List ErrorRecord → String → List DEntry
  | [], _ => []
  | e :: rest, l =>
    if errLabel e = l then entryOf e ++ labelEntries rest l
    else labelEntries rest l

/-- The entry of a label in the grouping, when present. -/
def findG (g : List (String × List DEntry)) (l : String) : Option (List DEntry) :=
  (g.find? (fun kv => kv.1 = l)).map Prod.snd

/-! ### Supporting lemmas -/

theorem setD_keys (kvs : List (String × CValue)) (ns : List Ident) :
    ((setD kvs ns).1).map Prod.fst = kvs.map Prod.fst := by
  induction kvs generalizing ns with
  | nil => simp [setD]
  | cons kv rest ih =>
    obtain ⟨k, v⟩ := kv
    simp [setD, ih]

theorem doIdPassD_keys (m : List (String × CValue)) :
    ((doIdPassD m).1).map Prod.fst = m.map Prod.fst := by
  simp [doIdPassD, setD_keys]

theorem domainLoop_append (reg : String → Option Component) (esp : String)
    (names : List String) (l1 l2 : List (String × CValue)) :
    domainLoop reg esp names (l1 ++ l2) =
      match domainLoop reg esp names l1 with
      | Except.error e => Except.error e
      | Except.ok (e1, m1) =>
        match domainLoop reg esp names l2 with
        | Except.error e => Except.error e
        | Except.ok (e2, m2) => Except.ok (e1 ++ e2, m1 ++ m2) := by
  induction l1 with
  | nil =>
    simp only [List.nil_append, domainLoop]
    cases domainLoop reg esp names l2 with
    | error e => rfl
    | ok pr => obtain ⟨e2, m2⟩ := pr; simp
  | cons hd rest ih =>
    obtain ⟨d, conf⟩ := hd
    by_cases hc : d = CONF_ESPHOMEYAML
    · simpa [domainLoop, hc] using ih
    · simp only [List.cons_append, List.append_eq, domainLoop, hc, if_false]
      cases hp : processDomain reg esp names d conf with
      | error e => rfl
      | ok pr =>
        obtain ⟨errs, entry⟩ := pr
        rw [ih]
        cases hr : domainLoop reg esp names rest with
        | error e => rfl
        | ok pr2 =>
          obtain ⟨e1, m1⟩ := pr2
          cases hl : domainLoop reg esp names l2 with
          | error e => rfl
          | ok pr3 =>
            obtain ⟨e2, m2⟩ := pr3
            cases entry <;> simp

theorem domainLoop_keys_subset (reg : String → Option Component) (esp : String)
    (names : List String) :
    ∀ (l : List (String × CValue)) (e : List ErrorRecord)
      (m : List (String × CValue)),
      domainLoop reg esp names l = Except.ok (e, m) →
      ∀ k ∈ m.map Prod.fst, k ∈ l.map Prod.fst := by
  intro l
  induction l with
  | nil =>
    intro e m h
    simp [domainLoop] at h
    simp [h.2.symm]
  | cons hd rest ih =>
    obtain ⟨d, conf⟩ := hd
    intro e m h
    by_cases hc : d = CONF_ESPHOMEYAML
    · simp only [domainLoop, hc, if_true] at h
      intro k hk
      exact List.mem_cons_of_mem _ (ih e m h k hk)
    · simp only [domainLoop, hc, if_false] at h
      cases hp : processDomain reg esp names d conf with
      | error err => rw [hp] at h; exact absurd h (by simp)
      | ok pr =>
        obtain ⟨errs, entry⟩ := pr
        rw [hp] at h
        cases hr : domainLoop reg esp names rest with
        | error err => rw [hr] at h; exact absurd h (by simp)
        | ok pr2 =>
          obtain ⟨e1, m1⟩ := pr2
          rw [hr] at h
          simp only [Except.ok.injEq, Prod.mk.injEq] at h
          obtain ⟨he, hm⟩ := h
          cases entry with
          | none =>
            subst hm
            intro k hk
            exact List.mem_cons_of_mem _ (ih e1 m1 hr k hk)
          | some v =>
            subst hm
            intro k hk
            simp only [List.map_cons, List.mem_cons] at hk
            rcases hk with hk | hk
            · simp [hk]
            · exact List.mem_cons_of_mem _ (ih e1 m1 hr k hk)

theorem validate_config_ok_unfold (reg : String → Option Component)
    (esp : String) (cs : CValue → Except String CValue)
    (cfg : List (String × CValue))
    (h1 : hasKey cfg CONF_ESPHOMEYAML = true)
    (h2 : hasKey cfg CONF_WIFI = true) :
    validate_config reg esp cs cfg =
      match domainLoop reg esp (cfg.map Prod.fst) cfg with
      | Except.error e => Except.error e
      | Except.ok (les, entries) =>
        Except.ok ⟨(doIdPassD ((coreStep cs cfg).2 ++ entries)).1,
                   (coreStep cs cfg).1 ++ les ++
                     (doIdPassD ((coreStep cs cfg).2 ++ entries)).2⟩ := by
  unfold validate_config
  have hf : REQUIRED_COMPONENTS.find? (fun r => !hasKey cfg r) = none := by
    simp [REQUIRED_COMPONENTS, List.find?, h1, h2]
  rw [hf]

/-! ### Claim theorems -/

/-- C1: whenever a domain of the fixed required set (the core metadata domain
or the network-configuration domain) is absent as a top-level key,
validate_config raises for a missing required domain — for every registry,
schema and active platform, hence before any per-domain processing — so no
ValidationResult is produced and no record enters the error sequence. -/
theorem validate_config_missing_required_fatal
    (reg : String → Option Component) (esp : String)
    (cs : CValue → Except String CValue) (cfg : List (String × CValue))
    (h : hasKey cfg CONF_ESPHOMEYAML = false ∨ hasKey cfg CONF_WIFI = false) :
    ∃ r, r ∈ REQUIRED_COMPONENTS ∧ hasKey cfg r = false ∧
      validate_config reg esp cs cfg =
        Except.error ("Component " ++ r ++ " is required for esphomeyaml.") := by
  by_cases h1 : hasKey cfg CONF_ESPHOMEYAML = true
  · have h2 : hasKey cfg CONF_WIFI = false := by
      rcases h with h | h
      · rw [h1] at h; exact absurd h (by simp)
      · exact h
    refine ⟨CONF_WIFI, by simp [REQUIRED_COMPONENTS], h2, ?_⟩
    unfold validate_config
    simp [REQUIRED_COMPONENTS, List.find?, h1, h2]
  · have h1f : hasKey cfg CONF_ESPHOMEYAML = false := by
      simpa using h1
    refine ⟨CONF_ESPHOMEYAML, by simp [REQUIRED_COMPONENTS], h1f, ?_⟩
    unfold validate_config
    simp [REQUIRED_COMPONENTS, List.find?, h1f]

/-- Instantiation of the hypotheses of the preceding fatal-gate theorem at a
concrete configuration missing the network domain. -/
theorem validate_config_missing_required_fatal_witness :
    (hasKey [(CONF_ESPHOMEYAML, CValue.vdict [])] CONF_ESPHOMEYAML = false ∨
     hasKey [(CONF_ESPHOMEYAML, CValue.vdict [])] CONF_WIFI = false) ∧
    ∃ r, r ∈ REQUIRED_COMPONENTS ∧
      hasKey [(CONF_ESPHOMEYAML, CValue.vdict [])] r = false ∧
      validate_config (fun _ => none) "ESP32" (fun c => Except.ok c)
          [(CONF_ESPHOMEYAML, CValue.vdict [])] =
        Except.error ("Component " ++ r ++ " is required for esphomeyaml.") :=
  ⟨Or.inr (by decide),
   validate_config_missing_required_fatal (fun _ => none) "ESP32"
     (fun c => Except.ok c) [(CONF_ESPHOMEYAML, CValue.vdict [])]
     (Or.inr (by decide))⟩

/-- A platform descriptor that both misses a dependency and does not support
the active target platform. -/
def c3Plat : Component :=
  ⟨some [ESP_PLATFORM_ESP8266], some ["uart"], none,
   some (fun c => Except.ok c)⟩

def c3Reg : String → Option Component :=
  fun d => if d = "sensor.dht" then some c3Plat else none

/-- C3 counterexample: a platform entry whose descriptor does not support the
active platform (ESP32) and also has a missing dependency is skipped with a
MissingDependency error and no UnsupportedPlatform error — the source checks
dependencies before compatibility, contradicting the claimed order and its
consequence. -/
theorem c3_counterexample :
    (c3Plat.esp_platforms.getD ESP_PLATFORMS).contains "ESP32" = false ∧
    (c3Plat.dependencies.getD []).filter
        (fun dep => !((["esphomeyaml", "wifi", "sensor"] : List String).contains dep))
      = ["uart"] ∧
    ((processPlatformEntry c3Reg "ESP32" ["esphomeyaml", "wifi", "sensor"]
        "sensor" (CValue.vdict [("platform", CValue.vstr "dht")])).1.map
      (fun e => e.message)) = [mkPlatMissingDep "sensor" "dht" "uart"] ∧
    mkPlatUnsupported "sensor" "dht" "ESP32" ∉
      ((processPlatformEntry c3Reg "ESP32" ["esphomeyaml", "wifi", "sensor"]
          "sensor" (CValue.vdict [("platform", CValue.vstr "dht")])).1.map
        (fun e => e.message)) := by
  refine ⟨by decide, by decide, by decide, by decide⟩

/-- C3 amended: when a platform-style entry's discriminator resolves to a
platform descriptor, the orchestrator checks the descriptor's dependencies
first and its target-platform compatibility only after the dependency gate
passes; an entry whose descriptor has missing dependencies is skipped with
exactly one MissingDependency error per missing name and yields no
UnsupportedPlatform error, even if the descriptor also does not support the
active target platform. -/
theorem platform_entry_deps_before_compat
    (reg : String → Option Component) (esp : String) (names : List String)
    (domain : String) (kvs : List (String × CValue)) (p : String)
    (pc : Component)
    (hpv : lookupKey kvs "platform" = some (CValue.vstr p))
    (hreg : reg (domain ++ "." ++ p) = some pc) :
    ((pc.dependencies.getD []).filter (fun dep => !(names.contains dep)) ≠ [] →
      processPlatformEntry reg esp names domain (CValue.vdict kvs) =
        (((pc.dependencies.getD []).filter
            (fun dep => !(names.contains dep))).map
          (fun dep => ⟨mkPlatMissingDep domain p dep, none, none⟩), none)) ∧
    ((pc.dependencies.getD []).filter (fun dep => !(names.contains dep)) = [] →
      (pc.esp_platforms.getD ESP_PLATFORMS).contains esp = false →
      processPlatformEntry reg esp names domain (CValue.vdict kvs) =
        ([⟨mkPlatUnsupported domain p esp, none, none⟩], none)) := by
  constructor
  · intro hmiss
    obtain ⟨a, ha, hna⟩ : ∃ a ∈ pc.dependencies.getD [], a ∉ names := by
      cases hfe : (pc.dependencies.getD []).filter
          (fun dep => !(names.contains dep)) with
      | nil => exact absurd hfe hmiss
      | cons a tl =>
        have hmem : a ∈ (pc.dependencies.getD []).filter
            (fun dep => !(names.contains dep)) := by
          rw [hfe]; exact List.mem_cons_self _ _
        have hma := List.mem_filter.mp hmem
        refine ⟨a, hma.1, ?_⟩
        simpa using hma.2
    simp [processPlatformEntry, hpv, pyStr, hreg]
    intro hall
    exact absurd (hall a ha) hna
  · intro hdeps hplat
    have hall : ∀ a ∈ pc.dependencies.getD [], a ∈ names := by
      intro a ha
      by_contra hna
      have hmem : a ∈ (pc.dependencies.getD []).filter
          (fun dep => !(names.contains dep)) :=
        List.mem_filter.mpr ⟨ha, by simpa using hna⟩
      rw [hdeps] at hmem
      simp at hmem
    have hnp : esp ∉ pc.esp_platforms.getD ESP_PLATFORMS := by
      simpa using hplat
    simp [processPlatformEntry, hpv, pyStr, hreg, hall, hnp]
    intro x hx hnx
    exact absurd (hall x hx) hnx

/-- Instantiation of the hypotheses of the dependency-order theorem at the
concrete registry of the counterexample. -/
theorem platform_entry_deps_before_compat_witness :
    ((c3Plat.dependencies.getD []).filter
        (fun dep => !((["sensor"] : List String).contains dep)) ≠ []) ∧
    processPlatformEntry c3Reg "ESP32" ["sensor"] "sensor"
        (CValue.vdict [("platform", CValue.vstr "dht")]) =
      (((c3Plat.dependencies.getD []).filter
          (fun dep => !((["sensor"] : List String).contains dep))).map
        (fun dep => ⟨mkPlatMissingDep "sensor" "dht" dep, none, none⟩), none) :=
  ⟨by decide,
   (platform_entry_deps_before_compat c3Reg "ESP32" ["sensor"] "sensor"
      [("platform", CValue.vstr "dht")] "dht" c3Plat rfl rfl).1 (by decide)⟩

/-- C5: in a platform-style sequence, a malformed entry (here: a mapping
without the platform discriminator) yields exactly one MalformedPlatformEntry
error and is skipped on its own, leaving siblings untouched: with three
entries of which the second lacks its discriminator and the first and third
validate, the domain's collected list keeps exactly the first and third
validated values and the error list is exactly the one malformed-entry
record. -/
theorem platform_entry_isolated_failure
    (reg : String → Option Component) (esp : String) (names : List String)
    (domain : String) (e1 e3 : CValue) (kv2 : List (String × CValue))
    (v1 v3 : CValue)
    (h2 : lookupKey kv2 "platform" = none)
    (h1 : processPlatformEntry reg esp names domain e1 = ([], some v1))
    (h3 : processPlatformEntry reg esp names domain e3 = ([], some v3)) :
    platformPart reg esp names domain
        (CValue.vlist [e1, CValue.vdict kv2, e3]) =
      Except.ok ([⟨mkNoPlatform domain, none, none⟩],
                 some (CValue.vlist [v1, v3])) := by
  have hm : processPlatformEntry reg esp names domain (CValue.vdict kv2) =
      ([⟨mkNoPlatform domain, none, none⟩], none) := by
    simp [processPlatformEntry, h2]
  simp [platformPart, pyIter, h1, h3, hm]

def c5Plat : Component := ⟨none, none, none, some (fun c => Except.ok c)⟩

def c5Reg : String → Option Component :=
  fun d => if d = "sensor.dht" then some c5Plat else none

/-- Instantiation of the hypotheses of the isolated-failure theorem at a
concrete three-entry platform-style sequence. -/
theorem platform_entry_isolated_failure_witness :
    (lookupKey [("pin", CValue.vint 2)] "platform" = none) ∧
    platformPart c5Reg "ESP32" ["sensor"] "sensor"
        (CValue.vlist [CValue.vdict [("platform", CValue.vstr "dht")],
                       CValue.vdict [("pin", CValue.vint 2)],
                       CValue.vdict [("platform", CValue.vstr "dht"),
                                     ("pin", CValue.vint 4)]]) =
      Except.ok ([⟨mkNoPlatform "sensor", none, none⟩],
                 some (CValue.vlist
                   [CValue.vdict [("platform", CValue.vstr "dht")],
                    CValue.vdict [("platform", CValue.vstr "dht"),
                                  ("pin", CValue.vint 4)]])) :=
  ⟨rfl,
   platform_entry_isolated_failure c5Reg "ESP32" ["sensor"] "sensor"
     (CValue.vdict [("platform", CValue.vstr "dht")])
     (CValue.vdict [("platform", CValue.vstr "dht"), ("pin", CValue.vint 4)])
     [("pin", CValue.vint 2)] _ _ rfl rfl rfl⟩

def c10Comp : Component :=
  ⟨none, none, some (fun _ => Except.error "expected str"),
   some (fun c => Except.ok c)⟩

def c10Reg : String → Option Component :=
  fun d => if d = "light" then some c10Comp else none

/-- C10 counterexample: a domain that passes the registry-lookup,
target-platform and dependency gates and whose descriptor carries a
platform-level schema nevertheless receives no entry in the result mapping
when its component-level schema fails — the failure skips the remainder of
the domain, contradicting the claimed unconditional presence of the entry. -/
theorem c10_counterexample :
    c10Reg "light" = some c10Comp ∧
    c10Comp.platform_schema.isSome = true ∧
    (c10Comp.esp_platforms.getD ESP_PLATFORMS).contains "ESP32" = true ∧
    (c10Comp.dependencies.getD []).filter
        (fun dep => !((["esphomeyaml", "wifi", "light"] : List String).contains dep))
      = [] ∧
    processDomain c10Reg "ESP32" ["esphomeyaml", "wifi", "light"] "light"
        (CValue.vlist []) =
      Except.ok ([⟨formatConfigError "expected str" "light" (CValue.vlist []),
                  some "light", some (CValue.vlist [])⟩], none) :=
  ⟨rfl, rfl, by decide, by decide, rfl⟩

/-- C10 amended: a non-required domain that passes the registry-lookup,
target-platform and dependency gates, whose raw value is iterable and whose
component-level schema — if present — validates successfully, always receives
a result-mapping entry when its descriptor carries a platform-level schema,
holding exactly the list of successfully validated platform entries (the
empty list when every entry failed); with neither a component-level nor a
platform-level schema the domain passes every gate yet never receives an
entry. -/
theorem platform_domain_entry_presence
    (reg : String → Option Component) (esp : String) (names : List String)
    (domain : String) (conf0 : CValue) (comp : Component)
    (entries : List CValue)
    (hreg : reg domain = some comp)
    (hplat : (comp.esp_platforms.getD ESP_PLATFORMS).contains esp = true)
    (hdeps : (comp.dependencies.getD []).filter
        (fun dep => !(names.contains dep)) = [])
    (hiter : pyIter (normConf conf0) = some entries) :
    ((∃ psch, comp.platform_schema = some psch) →
      (comp.config_schema = none ∨
       (∃ sch v, comp.config_schema = some sch ∧
          sch (normConf conf0) = Except.ok v)) →
      processDomain reg esp names domain conf0 =
        Except.ok
          (((entries.map (processPlatformEntry reg esp names domain)).map
              Prod.fst).flatten,
           some (CValue.vlist (entries.filterMap
             (fun e => (processPlatformEntry reg esp names domain e).2))))) ∧
    (comp.config_schema = none → comp.platform_schema = none →
      processDomain reg esp names domain conf0 = Except.ok ([], none)) := by
  have hpp : platformPart reg esp names domain (normConf conf0) =
      Except.ok
        (((entries.map (processPlatformEntry reg esp names domain)).map
            Prod.fst).flatten,
         some (CValue.vlist (entries.filterMap
           (fun e => (processPlatformEntry reg esp names domain e).2)))) := by
    simp only [platformPart, hiter]
    rw [List.filterMap_map]
    rfl
  have hplat' : esp ∈ comp.esp_platforms.getD ESP_PLATFORMS := by
    simpa using hplat
  have hall : ∀ a ∈ comp.dependencies.getD [], a ∈ names := by
    intro a ha
    by_contra hna
    have hmem : a ∈ (comp.dependencies.getD []).filter
        (fun dep => !(names.contains dep)) :=
      List.mem_filter.mpr ⟨ha, by simpa using hna⟩
    rw [hdeps] at hmem
    simp at hmem
  constructor
  · rintro ⟨psch, hps⟩ hcs
    rcases hcs with hcs | ⟨sch, v, hcs, hok⟩
    · simp [processDomain, hreg, hplat', hall, hcs, hps, hpp]
      exact hall
    · simp [processDomain, hreg, hplat', hall, hcs, hok, hps, hpp]
      exact hall
  · intro hcs hps
    simp [processDomain, hreg, hplat', hall, hcs, hps]
    intro x hx hnx
    exact absurd (hall x hx) hnx

def c10bComp : Component := ⟨none, none, none, some (fun c => Except.ok c)⟩

def c10bReg : String → Option Component :=
  fun d => if d = "sensor" then some c10bComp
    else if d = "sensor.dht" then some c10bComp else none

/-- Instantiation of the hypotheses of the entry-presence theorem at a
concrete platform-style domain with one validating entry. -/
theorem platform_domain_entry_presence_witness :
    c10bReg "sensor" = some c10bComp ∧
    pyIter (normConf (CValue.vlist [CValue.vdict [("platform", CValue.vstr "dht")]]))
      = some [CValue.vdict [("platform", CValue.vstr "dht")]] ∧
    processDomain c10bReg "ESP32" ["sensor"] "sensor"
        (CValue.vlist [CValue.vdict [("platform", CValue.vstr "dht")]]) =
      Except.ok
        ((([CValue.vdict [("platform", CValue.vstr "dht")]].map
            (processPlatformEntry c10bReg "ESP32" ["sensor"] "sensor")).map
              Prod.fst).flatten,
         some (CValue.vlist
           ([CValue.vdict [("platform", CValue.vstr "dht")]].filterMap
             (fun e => (processPlatformEntry c10bReg "ESP32" ["sensor"]
                "sensor" e).2)))) :=
  ⟨rfl, rfl,
   (platform_domain_entry_presence c10bReg "ESP32" ["sensor"] "sensor"
      (CValue.vlist [CValue.vdict [("platform", CValue.vstr "dht")]])
      c10bComp [CValue.vdict [("platform", CValue.vstr "dht")]]
      rfl (by decide) (by decide) rfl).1
     ⟨fun c => Except.ok c, rfl⟩ (Or.inl rfl)⟩

def c9errs : List ErrorRecord :=
  [⟨"m1", some "b", none⟩, ⟨"m2", some "a", none⟩]

/-- C9 counterexample: the groups live in a plain (unordered) Python 2 dict,
so a display order listing label a before label b is a possible display of an
error sequence whose first-seen label order is b before a — the claimed
preservation of first-seen label order fails on this concrete sequence. -/
theorem c9_counterexample :
    (groupErrors c9errs).map Prod.fst = ["b", "a"] ∧
    isDisplayOrder c9errs
      [("a", [DEntry.msg "m2"]), ("b", [DEntry.msg "m1"])] ∧
    ¬ (∀ o, isDisplayOrder c9errs o → o.map Prod.fst = ["b", "a"]) := by
  have hg : groupErrors c9errs =
      [("b", [DEntry.msg "m1"]), ("a", [DEntry.msg "m2"])] := rfl
  have hmem : isDisplayOrder c9errs
      [("a", [DEntry.msg "m2"]), ("b", [DEntry.msg "m1"])] := by
    rw [isDisplayOrder, hg]
    exact List.Perm.swap _ _ _
  refine ⟨rfl, hmem, fun h => ?_⟩
  have hcontr := h _ hmem
  simp at hcontr

theorem hasKey_false_iff (m : List (String × CValue)) (d : String) :
    hasKey m d = false ↔ d ∉ m.map Prod.fst := by
  induction m with
  | nil => simp [hasKey, lookupKey]
  | cons kv rest ih =>
    obtain ⟨k, v⟩ := kv
    by_cases h : k = d
    · subst h
      simp [hasKey, lookupKey]
    · simp only [hasKey, lookupKey, if_neg h] at ih ⊢
      simp only [List.map_cons, List.mem_cons]
      constructor
      · intro hh
        rintro (hd | hd)
        · exact h hd.symm
        · exact (ih.mp hh) hd
      · intro hh
        exact ih.mpr (fun hd => hh (Or.inr hd))

theorem coreStep_map_keys (cs : CValue → Except String CValue)
    (cfg : List (String × CValue)) :
    ((coreStep cs cfg).2).map Prod.fst = [] ∨
    ((coreStep cs cfg).2).map Prod.fst = [CONF_ESPHOMEYAML] := by
  unfold coreStep
  cases cs ((lookupKey cfg CONF_ESPHOMEYAML).getD CValue.vnone) with
  | ok v => right; rfl
  | error ex => left; rfl

/-- C2: for a non-core top-level domain whose component is found and
target-platform compatible, each declared dependency name is checked against
the raw top-level domain names (computed once from the input, before the
loop); when some are missing, the run's error sequence contains exactly one
MissingDependency record per missing name — the core-schema errors and the
other domains' errors sit strictly before/after the segment — and the domain
receives no entry in the result mapping. -/
theorem validate_config_missing_dependency
    (reg : String → Option Component) (esp : String)
    (cs : CValue → Except String CValue)
    (pre post cfg : List (String × CValue)) (domain : String) (conf : CValue)
    (names : List String) (comp : Component) (c : Config)
    (hcfg : cfg = pre ++ (domain, conf) :: post)
    (hnames : names = cfg.map Prod.fst)
    (hdom : domain ≠ CONF_ESPHOMEYAML)
    (hnodup : (cfg.map Prod.fst).Nodup)
    (hreg : reg domain = some comp)
    (hplat : (comp.esp_platforms.getD ESP_PLATFORMS).contains esp = true)
    (hmiss : (comp.dependencies.getD []).filter
        (fun dep => !(names.contains dep)) ≠ [])
    (hok : validate_config reg esp cs cfg = Except.ok c) :
    hasKey c.map domain = false ∧
    ∃ ePre mPre ePost mPost,
      domainLoop reg esp names pre = Except.ok (ePre, mPre) ∧
      domainLoop reg esp names post = Except.ok (ePost, mPost) ∧
      c.errors =
        (coreStep cs cfg).1 ++ ePre ++
          ((comp.dependencies.getD []).filter
              (fun dep => !(names.contains dep))).map
            (fun dep => ⟨mkMissingDep domain dep, none, none⟩) ++
          ePost ++
          (doIdPassD ((coreStep cs cfg).2 ++ (mPre ++ mPost))).2 ∧
      c.map = (doIdPassD ((coreStep cs cfg).2 ++ (mPre ++ mPost))).1 := by
  have hproc : processDomain reg esp names domain conf =
      Except.ok (((comp.dependencies.getD []).filter
          (fun dep => !(names.contains dep))).map
        (fun dep => ⟨mkMissingDep domain dep, none, none⟩), none) := by
    have hplat' : esp ∈ comp.esp_platforms.getD ESP_PLATFORMS := by
      simpa using hplat
    obtain ⟨a, ha, hna⟩ : ∃ a ∈ comp.dependencies.getD [], a ∉ names := by
      cases hfe : (comp.dependencies.getD []).filter
          (fun dep => !(names.contains dep)) with
      | nil => exact absurd hfe hmiss
      | cons a tl =>
        have hmem : a ∈ (comp.dependencies.getD []).filter
            (fun dep => !(names.contains dep)) := by
          rw [hfe]; exact List.mem_cons_self _ _
        have hma := List.mem_filter.mp hmem
        refine ⟨a, hma.1, ?_⟩
        simpa using hma.2
    simp [processDomain, hreg, hplat']
    intro hall
    exact absurd (hall a ha) hna
  cases hfind : REQUIRED_COMPONENTS.find? (fun r => !hasKey cfg r) with
  | some r =>
    unfold validate_config at hok
    rw [hfind] at hok
    exact absurd hok (by simp)
  | none =>
    have hreqs := List.find?_eq_none.mp hfind
    have h1 : hasKey cfg CONF_ESPHOMEYAML = true := by
      have := hreqs CONF_ESPHOMEYAML (by simp [REQUIRED_COMPONENTS])
      simpa using this
    have h2 : hasKey cfg CONF_WIFI = true := by
      have := hreqs CONF_WIFI (by simp [REQUIRED_COMPONENTS])
      simpa using this
    rw [validate_config_ok_unfold reg esp cs cfg h1 h2] at hok
    rw [← hnames] at hok
    cases hdl : domainLoop reg esp names cfg with
    | error e => rw [hdl] at hok; exact absurd hok (by simp)
    | ok pr =>
      obtain ⟨les, entries⟩ := pr
      rw [hdl] at hok
      simp only at hok
      have hdl2 := hdl
      rw [hcfg, domainLoop_append] at hdl2
      cases hpre : domainLoop reg esp names pre with
      | error e => rw [hpre] at hdl2; exact absurd hdl2 (by simp)
      | ok prPre =>
        obtain ⟨ePre, mPre⟩ := prPre
        rw [hpre] at hdl2
        have hmid : domainLoop reg esp names ((domain, conf) :: post) =
            match domainLoop reg esp names post with
            | Except.error e => Except.error e
            | Except.ok (e2, m2) =>
              Except.ok (((comp.dependencies.getD []).filter
                  (fun dep => !(names.contains dep))).map
                (fun dep => ⟨mkMissingDep domain dep, none, none⟩) ++ e2, m2) := by
          simp only [domainLoop, hdom, if_false, hproc]
        rw [hmid] at hdl2
        cases hpost : domainLoop reg esp names post with
        | error e => rw [hpost] at hdl2; exact absurd hdl2 (by simp)
        | ok prPost =>
          obtain ⟨ePost, mPost⟩ := prPost
          rw [hpost] at hdl2
          simp only [Except.ok.injEq, Prod.mk.injEq] at hdl2
          obtain ⟨hles, hentries⟩ := hdl2
          simp only [Except.ok.injEq] at hok
          subst hok
          subst hles
          subst hentries
          refine ⟨?_, ePre, mPre, ePost, mPost, rfl, rfl, by simp, by simp⟩
          rw [hasKey_false_iff, doIdPassD_keys]
          simp only [List.map_append, List.mem_append]
          rintro (hin | hin | hin)
          · rcases coreStep_map_keys cs cfg with hcs | hcs
            · rw [hcs] at hin; simp at hin
            · rw [hcs] at hin
              simp only [List.mem_singleton] at hin
              exact hdom hin
          · have hk := domainLoop_keys_subset reg esp names pre ePre mPre hpre
              domain hin
            rw [hcfg] at hnodup
            simp only [List.map_append, List.map_cons] at hnodup
            have hdisj := (List.nodup_append.mp hnodup).2.2
            exact hdisj hk (List.mem_cons_self _ _)
          · have hk := domainLoop_keys_subset reg esp names post ePost mPost hpost
              domain hin
            rw [hcfg] at hnodup
            simp only [List.map_append, List.map_cons] at hnodup
            have h2 := (List.nodup_append.mp hnodup).2.1
            rw [List.nodup_cons] at h2
            exact h2.1 hk

def c2Comp : Component := ⟨none, some ["mqtt"], none, none⟩

def c2Reg : String → Option Component :=
  fun d => if d = "switch" then some c2Comp
    else if d = "wifi" then some ⟨none, none, none, none⟩ else none

def c2Cfg : List (String × CValue) :=
  [(CONF_ESPHOMEYAML, CValue.vdict []), (CONF_WIFI, CValue.vdict []),
   ("switch", CValue.vdict [])]

/-- Instantiation of the hypotheses of the missing-dependency theorem at a
concrete configuration whose switch domain requires an absent mqtt domain. -/
theorem validate_config_missing_dependency_witness :
    hasKey (Config.mk [(CONF_ESPHOMEYAML, CValue.vdict [])]
        [⟨mkMissingDep "switch" "mqtt", none, none⟩]).map "switch" = false ∧
    ∃ ePre mPre ePost mPost,
      domainLoop c2Reg "ESP32" (c2Cfg.map Prod.fst)
          [(CONF_ESPHOMEYAML, CValue.vdict []), (CONF_WIFI, CValue.vdict [])] =
        Except.ok (ePre, mPre) ∧
      domainLoop c2Reg "ESP32" (c2Cfg.map Prod.fst) [] = Except.ok (ePost, mPost) ∧
      (Config.mk [(CONF_ESPHOMEYAML, CValue.vdict [])]
          [⟨mkMissingDep "switch" "mqtt", none, none⟩]).errors =
        (coreStep (fun v => Except.ok v) c2Cfg).1 ++ ePre ++
          ((c2Comp.dependencies.getD []).filter
              (fun dep => !((c2Cfg.map Prod.fst).contains dep))).map
            (fun dep => ⟨mkMissingDep "switch" dep, none, none⟩) ++
          ePost ++
          (doIdPassD ((coreStep (fun v => Except.ok v) c2Cfg).2 ++
            (mPre ++ mPost))).2 ∧
      (Config.mk [(CONF_ESPHOMEYAML, CValue.vdict [])]
          [⟨mkMissingDep "switch" "mqtt", none, none⟩]).map =
        (doIdPassD ((coreStep (fun v => Except.ok v) c2Cfg).2 ++
          (mPre ++ mPost))).1 :=
  validate_config_missing_dependency c2Reg "ESP32" (fun v => Except.ok v)
    [(CONF_ESPHOMEYAML, CValue.vdict []), (CONF_WIFI, CValue.vdict [])] []
    c2Cfg "switch" (CValue.vdict []) (c2Cfg.map Prod.fst) c2Comp
    (Config.mk [(CONF_ESPHOMEYAML, CValue.vdict [])]
      [⟨mkMissingDep "switch" "mqtt", none, none⟩])
    rfl rfl (by decide) (by decide) rfl (by decide) (by decide) rfl

def c4Cfg : List (String × CValue) :=
  [(CONF_ESPHOMEYAML,
    CValue.vdict [("name", CValue.vstr "d"), ("board", CValue.vstr "nodemcu")]),
   (CONF_WIFI, CValue.vdict [])]

/-- C4 counterexample: a configuration whose core section lacks the
target-platform string makes load_config abort fatally — no ValidationResult
is produced and nothing is recorded — although the claim says any core-schema
failure, including a missing target-platform string, is non-fatal. -/
theorem c4_counterexample :
    load_config (fun _ => none) (fun v => Except.ok v) "conf.yaml" (some c4Cfg) =
      Except.error "esphomeyaml.platform not specified." ∧
    ∀ c : Config,
      load_config (fun _ => none) (fun v => Except.ok v) "conf.yaml" (some c4Cfg) ≠
        Except.ok c := by
  have h1 : load_config (fun _ => none) (fun v => Except.ok v) "conf.yaml"
      (some c4Cfg) = Except.error "esphomeyaml.platform not specified." := rfl
  exact ⟨h1, fun c hc => Except.noConfusion (h1.symm.trans hc)⟩

/-- C4 amended: a core-schema failure inside validate_config is non-fatal —
the formatted violation is recorded first and the whole per-domain loop still
runs, its errors and entries all surfacing in the result — while load_config
aborts fatally, recording nothing, whenever the core section lacks the
target-platform string or the board id: two fatal conditions in addition to
the designated ones (required domain absent, source unreadable). -/
theorem core_schema_failure_nonfatal
    (reg : String → Option Component) (esp : String)
    (cs : CValue → Except String CValue) (cfg : List (String × CValue))
    (m : String) (les : List ErrorRecord) (entries : List (String × CValue))
    (h1 : hasKey cfg CONF_ESPHOMEYAML = true)
    (h2 : hasKey cfg CONF_WIFI = true)
    (hcore : cs ((lookupKey cfg CONF_ESPHOMEYAML).getD CValue.vnone) =
      Except.error m)
    (hloop : domainLoop reg esp (cfg.map Prod.fst) cfg = Except.ok (les, entries)) :
    (validate_config reg esp cs cfg =
      Except.ok ⟨(doIdPassD entries).1,
        ⟨formatConfigError m CONF_ESPHOMEYAML (CValue.vdict cfg),
         some CONF_ESPHOMEYAML, some (CValue.vdict cfg)⟩ ::
          (les ++ (doIdPassD entries).2)⟩) ∧
    (∀ (path : String) (cfg2 kv : List (String × CValue)),
      lookupKey cfg2 CONF_ESPHOMEYAML = some (CValue.vdict kv) →
      lookupKey kv "platform" = none →
      load_config reg cs path (some cfg2) =
        Except.error "esphomeyaml.platform not specified.") ∧
    (∀ (path : String) (cfg2 kv : List (String × CValue)) (pv : CValue),
      lookupKey cfg2 CONF_ESPHOMEYAML = some (CValue.vdict kv) →
      lookupKey kv "platform" = some pv →
      lookupKey kv "board" = none →
      load_config reg cs path (some cfg2) =
        Except.error "esphomeyaml.board not specified.") := by
  refine ⟨?_, ?_, ?_⟩
  · rw [validate_config_ok_unfold reg esp cs cfg h1 h2, hloop]
    have hcs : coreStep cs cfg =
        ([⟨formatConfigError m CONF_ESPHOMEYAML (CValue.vdict cfg),
           some CONF_ESPHOMEYAML, some (CValue.vdict cfg)⟩], []) := by
      simp [coreStep, hcore]
    rw [hcs]
    simp
  · intro path cfg2 kv hky hpl
    simp [load_config, hky, hpl]
  · intro path cfg2 kv pv hky hpl hbd
    simp [load_config, hky, hpl, hbd]

def c4bCfg : List (String × CValue) :=
  [(CONF_ESPHOMEYAML, CValue.vdict []), (CONF_WIFI, CValue.vdict [])]

def c4bReg : String → Option Component :=
  fun d => if d = "wifi" then some ⟨none, none, none, none⟩ else none

/-- Instantiation of the hypotheses of the non-fatal core-failure theorem at
a concrete configuration whose core schema rejects the empty core section. -/
theorem core_schema_failure_nonfatal_witness :
    validate_config c4bReg "ESP32" (fun _ => Except.error "required key name")
        c4bCfg =
      Except.ok ⟨(doIdPassD []).1,
        ⟨formatConfigError "required key name" CONF_ESPHOMEYAML
           (CValue.vdict c4bCfg),
         some CONF_ESPHOMEYAML, some (CValue.vdict c4bCfg)⟩ ::
          ([] ++ (doIdPassD []).2)⟩ :=
  (core_schema_failure_nonfatal c4bReg "ESP32"
    (fun _ => Except.error "required key name") c4bCfg "required key name"
    [] [] (by decide) (by decide) rfl rfl).1

theorem findG_cons (k : String) (xs : List DEntry)
    (rest : List (String × List DEntry)) (l : String) :
    findG ((k, xs) :: rest) l = if k = l then some xs else findG rest l := by
  by_cases h : k = l
  · rw [if_pos h]
    unfold findG
    rw [List.find?_cons_of_pos _ (by simpa using h)]
    rfl
  · rw [if_neg h]
    unfold findG
    rw [List.find?_cons_of_neg _ (by simpa using h)]

theorem findG_map_update (g : List (String × List DEntry)) (l l2 : String)
    (f : List DEntry → List DEntry) (hne : l2 ≠ l) :
    findG (g.map (fun kv => if kv.1 = l2 then (kv.1, f kv.2) else kv)) l =
      findG g l := by
  induction g with
  | nil => rfl
  | cons kv rest ih =>
    obtain ⟨k, xs⟩ := kv
    have hhd : ((if (k, xs).1 = l2 then ((k, xs).1, f (k, xs).2) else (k, xs)) :
        String × List DEntry) = (k, if k = l2 then f xs else xs) := by
      by_cases h2 : k = l2 <;> simp [h2]
    rw [List.map_cons, hhd, findG_cons, findG_cons]
    by_cases hk : k = l
    · rw [if_pos hk, if_pos hk]
      have : ¬ (k = l2) := fun h => hne (h ▸ hk)
      rw [if_neg this]
    · rw [if_neg hk, if_neg hk]
      exact ih

theorem findG_append_one (g : List (String × List DEntry)) (l l2 : String)
    (xs : List DEntry) (hne : l2 ≠ l) :
    findG (g ++ [(l2, xs)]) l = findG g l := by
  induction g with
  | nil =>
    rw [List.nil_append, findG_cons, if_neg hne]
  | cons kv rest ih =>
    obtain ⟨k, ys⟩ := kv
    rw [List.cons_append, findG_cons, findG_cons]
    by_cases hk : k = l
    · rw [if_pos hk, if_pos hk]
    · rw [if_neg hk, if_neg hk]
      exact ih

theorem findG_append_self (g : List (String × List DEntry)) (l : String)
    (xs : List DEntry) :
    findG (g ++ [(l, xs)]) l = (findG g l).or (some xs) := by
  induction g with
  | nil =>
    rw [List.nil_append, findG_cons, if_pos rfl]
    rfl
  | cons kv rest ih =>
    obtain ⟨k, ys⟩ := kv
    rw [List.cons_append, findG_cons, findG_cons]
    by_cases hk : k = l
    · rw [if_pos hk, if_pos hk]
      rfl
    · rw [if_neg hk, if_neg hk]
      exact ih

theorem findG_map_self (g : List (String × List DEntry)) (l : String)
    (f : List DEntry → List DEntry) :
    ∀ xs, findG g l = some xs →
      findG (g.map (fun kv => if kv.1 = l then (kv.1, f kv.2) else kv)) l =
        some (f xs) := by
  induction g with
  | nil => intro xs h; exact absurd h (by simp [findG])
  | cons kv rest ih =>
    obtain ⟨k, ys⟩ := kv
    intro xs h
    have hhd : ((if (k, ys).1 = l then ((k, ys).1, f (k, ys).2) else (k, ys)) :
        String × List DEntry) = (k, if k = l then f ys else ys) := by
      by_cases h2 : k = l <;> simp [h2]
    rw [List.map_cons, hhd, findG_cons]
    rw [findG_cons] at h
    by_cases hk : k = l
    · rw [if_pos hk] at h ⊢
      rw [if_pos hk]
      obtain rfl : ys = xs := by simpa using h
      rfl
    · rw [if_neg hk] at h ⊢
      exact ih xs h

theorem findG_isSome_any (g : List (String × List DEntry)) (l : String) :
    (findG g l).isSome = g.any (fun kv => kv.1 = l) := by
  induction g with
  | nil => rfl
  | cons kv rest ih =>
    obtain ⟨k, ys⟩ := kv
    rw [findG_cons, List.any_cons]
    by_cases hk : k = l
    · simp [hk]
    · simp [hk, ih]

theorem findG_groupStep_ne (g : List (String × List DEntry)) (e : ErrorRecord)
    (l : String) (hne : errLabel e ≠ l) :
    findG (groupStep g e) l = findG g l := by
  unfold groupStep
  by_cases hany : (g.any (fun kv => kv.1 = errLabel e)) = true
  · rw [if_pos (by simpa using hany)]
    exact findG_map_update g l (errLabel e) (fun xs => xs ++ entryOf e) hne
  · rw [if_neg (by simpa using hany)]
    exact findG_append_one g l (errLabel e) (entryOf e) hne

theorem findG_groupStep_eq (g : List (String × List DEntry)) (e : ErrorRecord)
    (l : String) (hl : errLabel e = l) :
    findG (groupStep g e) l = some ((findG g l).getD [] ++ entryOf e) := by
  subst hl
  unfold groupStep
  cases hfg : findG g (errLabel e) with
  | none =>
    have hany : (g.any (fun kv => kv.1 = errLabel e)) = false := by
      have hx := findG_isSome_any g (errLabel e)
      rw [hfg] at hx
      exact hx.symm
    rw [if_neg (by simp [hany])]
    rw [findG_append_self, hfg]
    rfl
  | some xs =>
    have hany : (g.any (fun kv => kv.1 = errLabel e)) = true := by
      have hx := findG_isSome_any g (errLabel e)
      rw [hfg] at hx
      exact hx.symm
    rw [if_pos (by simpa using hany)]
    rw [findG_map_self g (errLabel e) (fun ys => ys ++ entryOf e) xs hfg]
    rfl

theorem groupErrors_go (errs : List ErrorRecord) :
    ∀ (g : List (String × List DEntry)) (l : String),
      findG (errs.foldl groupStep g) l =
        match findG g l with
        | some xs => some (xs ++ labelEntries errs l)
        | none =>
          if errs.any (fun e => errLabel e = l) then some (labelEntries errs l)
          else none := by
  induction errs with
  | nil =>
    intro g l
    simp only [List.foldl_nil]
    cases h : findG g l <;> simp [labelEntries, h]
  | cons e rest ih =>
    intro g l
    rw [List.foldl_cons, ih]
    by_cases hl : errLabel e = l
    · rw [findG_groupStep_eq g e l hl]
      cases hfg : findG g l <;> simp [labelEntries, hl, hfg, List.any_cons]
    · rw [findG_groupStep_ne g e l hl]
      cases hfg : findG g l <;> simp [labelEntries, hl, hfg, List.any_cons]

/-- C9 amended: the display grouping is a pure function of the collected
error sequence: a label's group exists exactly when some error carries that
label (a null or empty domain counting as the general label), and its content
is the label's errors in first-seen order, each message followed by its
originating node when present.  The label display order itself is left
unspecified by the source (a plain Python 2 dict). -/
theorem group_errors_characterisation (errs : List ErrorRecord) (l : String) :
    findG (groupErrors errs) l =
      if errs.any (fun e => errLabel e = l) then some (labelEntries errs l)
      else none := by
  have h := groupErrors_go errs [] l
  have hnil : findG ([] : List (String × List DEntry)) l = none := rfl
  rw [groupErrors, h, hnil]

/-- Count of explicitly named declarations of a given name. -/
def cntDecl (n : String) (l : List IdItem) : Nat :=
  l.countP (fun it => it.ident.is_declaration && decide (it.ident.id = some n))

/-- Count of items carrying a given explicit name. -/
def cntNamed (n : String) (l : List IdItem) : Nat :=
  l.countP (fun v => decide (v.ident.id = some n))

/-- Count of redefinition errors for a given name. -/
def cntDup (n : String) (es : List ErrorRecord) : Nat :=
  es.countP (fun e => decide (e.message = dupMsg n))

theorem dupMsg_inj {a b : String} (h : dupMsg a = dupMsg b) : a = b := by
  unfold dupMsg at h
  have hd := congrArg String.data h
  simp only [String.data_append] at hd
  rw [List.append_assoc, List.append_assoc] at hd
  have h1 := List.append_cancel_left hd
  have h2 := List.append_cancel_right h1
  exact String.ext h2

theorem declGo_step_search (ds ss : List IdItem) (es : List ErrorRecord)
    (oid oty : Option String) (pfx0 : List String) (par0 : CValue)
    (rest : List IdItem) :
    declGo ds ss es (⟨⟨false, oid, oty⟩, pfx0, par0⟩ :: rest) =
      declGo ds (ss ++ [⟨⟨false, oid, oty⟩, pfx0, par0⟩]) es rest := by
  simp [declGo]

theorem declGo_step_unnamed (ds ss : List IdItem) (es : List ErrorRecord)
    (oty : Option String) (pfx0 : List String) (par0 : CValue)
    (rest : List IdItem) :
    declGo ds ss es (⟨⟨true, none, oty⟩, pfx0, par0⟩ :: rest) =
      declGo (ds ++ [⟨⟨true, none, oty⟩, pfx0, par0⟩]) ss es rest := by
  simp [declGo]

theorem declGo_step_drop (ds ss : List IdItem) (es : List ErrorRecord)
    (n2 : String) (oty : Option String) (pfx0 : List String) (par0 : CValue)
    (rest : List IdItem)
    (hany : (ds.any (fun v => v.ident.id = some n2)) = true) :
    declGo ds ss es (⟨⟨true, some n2, oty⟩, pfx0, par0⟩ :: rest) =
      declGo ds ss
        (es ++ [⟨dupMsg n2, some (joinDots pfx0), some par0⟩]) rest := by
  simp [declGo, hany]

theorem declGo_step_accept (ds ss : List IdItem) (es : List ErrorRecord)
    (n2 : String) (oty : Option String) (pfx0 : List String) (par0 : CValue)
    (rest : List IdItem)
    (hany : (ds.any (fun v => v.ident.id = some n2)) = false) :
    declGo ds ss es (⟨⟨true, some n2, oty⟩, pfx0, par0⟩ :: rest) =
      declGo (ds ++ [⟨⟨true, some n2, oty⟩, pfx0, par0⟩]) ss es rest := by
  simp [declGo, hany]

theorem declGo_has_named (n : String) :
    ∀ (items ds ss : List IdItem) (es : List ErrorRecord) (v0 : IdItem),
      v0 ∈ ds → v0.ident.id = some n →
      (v0 ∈ (declGo ds ss es items).1 ∧
       cntNamed n (declGo ds ss es items).1 = cntNamed n ds ∧
       cntDup n (declGo ds ss es items).2.2 = cntDup n es + cntDecl n items) := by
  intro items
  induction items with
  | nil =>
    intro ds ss es v0 hv hvn
    exact ⟨hv, rfl, by simp [cntDecl, declGo]⟩
  | cons it rest ih =>
    intro ds ss es v0 hv hvn
    obtain ⟨⟨b, oid, oty⟩, pfx0, par0⟩ := it
    cases b with
    | false =>
      rw [declGo_step_search]
      have hrec := ih ds (ss ++ [⟨⟨false, oid, oty⟩, pfx0, par0⟩]) es v0 hv hvn
      refine ⟨hrec.1, hrec.2.1, ?_⟩
      rw [hrec.2.2]
      simp [cntDecl, List.countP_cons]
    | true =>
      cases oid with
      | none =>
        rw [declGo_step_unnamed]
        have hrec := ih (ds ++ [⟨⟨true, none, oty⟩, pfx0, par0⟩]) ss es v0
          (List.mem_append_left _ hv) hvn
        refine ⟨hrec.1, ?_, ?_⟩
        · rw [hrec.2.1]
          simp [cntNamed, List.countP_append, List.countP_cons]
        · rw [hrec.2.2]
          simp [cntDecl, List.countP_cons]
      | some n2 =>
        by_cases hany : (ds.any (fun v => v.ident.id = some n2)) = true
        · rw [declGo_step_drop ds ss es n2 oty pfx0 par0 rest hany]
          have hrec := ih ds ss
            (es ++ [⟨dupMsg n2, some (joinDots pfx0), some par0⟩]) v0 hv hvn
          refine ⟨hrec.1, hrec.2.1, ?_⟩
          rw [hrec.2.2]
          by_cases hn2 : n2 = n
          · subst hn2
            simp [cntDup, cntDecl, List.countP_append, List.countP_cons]
            omega
          · have hne : ¬ (dupMsg n2 = dupMsg n) := fun h => hn2 (dupMsg_inj h)
            simp [cntDup, cntDecl, List.countP_append, List.countP_cons, hne, hn2]
        · have hanyf : (ds.any (fun v => v.ident.id = some n2)) = false := by
            simpa using hany
          have hn2 : ¬ (n2 = n) := by
            intro h
            subst h
            apply hany
            simp only [List.any_eq_true]
            exact ⟨v0, hv, by simp [hvn]⟩
          rw [declGo_step_accept ds ss es n2 oty pfx0 par0 rest hanyf]
          have hrec := ih (ds ++ [⟨⟨true, some n2, oty⟩, pfx0, par0⟩]) ss es v0
            (List.mem_append_left _ hv) hvn
          refine ⟨hrec.1, ?_, ?_⟩
          · rw [hrec.2.1]
            simp [cntNamed, List.countP_append, List.countP_cons, hn2]
          · rw [hrec.2.2]
            simp [cntDecl, List.countP_cons, hn2]

theorem declGo_no_named (n : String) :
    ∀ (items ds ss : List IdItem) (es : List ErrorRecord),
      (∀ v ∈ ds, ¬ (v.ident.id = some n)) →
      ((cntDecl n items = 0 →
         (∀ v ∈ (declGo ds ss es items).1, ¬ (v.ident.id = some n)) ∧
         cntDup n (declGo ds ss es items).2.2 = cntDup n es) ∧
       (∀ it0, items.find?
           (fun it => it.ident.is_declaration && decide (it.ident.id = some n)) =
           some it0 →
         (it0 ∈ (declGo ds ss es items).1 ∧
          cntNamed n (declGo ds ss es items).1 = cntNamed n ds + 1 ∧
          cntDup n (declGo ds ss es items).2.2 =
            cntDup n es + (cntDecl n items - 1)))) := by
  intro items
  induction items with
  | nil =>
    intro ds ss es hds
    refine ⟨fun _ => ⟨?_, rfl⟩, fun it0 h => absurd h (by simp)⟩
    simpa [declGo] using hds
  | cons it rest ih =>
    intro ds ss es hds
    obtain ⟨⟨b, oid, oty⟩, pfx0, par0⟩ := it
    cases b with
    | false =>
      rw [declGo_step_search]
      have hrec := ih ds (ss ++ [⟨⟨false, oid, oty⟩, pfx0, par0⟩]) es hds
      constructor
      · intro hc0
        have hc0' : cntDecl n rest = 0 := by
          simpa [cntDecl, List.countP_cons] using hc0
        exact hrec.1 hc0'
      · intro it0 hfind
        have hfind' : rest.find?
            (fun it => it.ident.is_declaration && decide (it.ident.id = some n)) =
            some it0 := by
          rw [List.find?_cons_of_neg _ (by simp)] at hfind
          exact hfind
        have h2 := hrec.2 it0 hfind'
        refine ⟨h2.1, h2.2.1, ?_⟩
        rw [h2.2.2]
        simp [cntDecl, List.countP_cons]
    | true =>
      cases oid with
      | none =>
        rw [declGo_step_unnamed]
        have hds' : ∀ v ∈ ds ++ [⟨⟨true, none, oty⟩, pfx0, par0⟩],
            ¬ (v.ident.id = some n) := by
          intro v hv
          rcases List.mem_append.mp hv with hv | hv
          · exact hds v hv
          · simp only [List.mem_singleton] at hv
            subst hv
            simp
        have hrec := ih (ds ++ [⟨⟨true, none, oty⟩, pfx0, par0⟩]) ss es hds'
        constructor
        · intro hc0
          have hc0' : cntDecl n rest = 0 := by
            simpa [cntDecl, List.countP_cons] using hc0
          exact hrec.1 hc0'
        · intro it0 hfind
          have hfind' : rest.find?
              (fun it => it.ident.is_declaration && decide (it.ident.id = some n)) =
              some it0 := by
            rw [List.find?_cons_of_neg _ (by simp)] at hfind
            exact hfind
          have h2 := hrec.2 it0 hfind'
          refine ⟨h2.1, ?_, ?_⟩
          · rw [h2.2.1]
            simp [cntNamed, List.countP_append, List.countP_cons]
          · rw [h2.2.2]
            simp [cntDecl, List.countP_cons]
      | some n2 =>
        by_cases hn2 : n2 = n
        · subst hn2
          have hanyf : (ds.any (fun v => v.ident.id = some n2)) = false := by
            rw [List.any_eq_false]
            intro v hv
            simpa using hds v hv
          rw [declGo_step_accept ds ss es n2 oty pfx0 par0 rest hanyf]
          have hA := declGo_has_named n2 rest
            (ds ++ [⟨⟨true, some n2, oty⟩, pfx0, par0⟩]) ss es
            ⟨⟨true, some n2, oty⟩, pfx0, par0⟩
            (List.mem_append_right _ (List.mem_singleton.mpr rfl)) rfl
          have hds0 : cntNamed n2 ds = 0 := by
            rw [cntNamed, List.countP_eq_zero]
            intro v hv
            simpa using hds v hv
          constructor
          · intro hc0
            exact absurd hc0 (by simp [cntDecl, List.countP_cons])
          · intro it0 hfind
            have hit0 : it0 = ⟨⟨true, some n2, oty⟩, pfx0, par0⟩ := by
              rw [List.find?_cons_of_pos _ (by simp)] at hfind
              exact (Option.some.injEq _ _ ▸ hfind.symm :)
            subst hit0
            refine ⟨hA.1, ?_, ?_⟩
            · rw [hA.2.1]
              simp [cntNamed, List.countP_append, List.countP_cons, hds0]
            · rw [hA.2.2]
              simp [cntDup, cntDecl, List.countP_cons]
        · by_cases hany : (ds.any (fun v => v.ident.id = some n2)) = true
          · rw [declGo_step_drop ds ss es n2 oty pfx0 par0 rest hany]
            have hrec := ih ds ss
              (es ++ [⟨dupMsg n2, some (joinDots pfx0), some par0⟩]) hds
            have hdup : cntDup n
                (es ++ [⟨dupMsg n2, some (joinDots pfx0), some par0⟩]) =
                cntDup n es := by
              have hne : ¬ (dupMsg n2 = dupMsg n) := fun h => hn2 (dupMsg_inj h)
              simp [cntDup, List.countP_append, List.countP_cons, hne]
            constructor
            · intro hc0
              have hc0' : cntDecl n rest = 0 := by
                simpa [cntDecl, List.countP_cons, hn2] using hc0
              have h1 := hrec.1 hc0'
              exact ⟨h1.1, by rw [h1.2, hdup]⟩
            · intro it0 hfind
              have hfind' : rest.find?
                  (fun it => it.ident.is_declaration && decide (it.ident.id = some n)) =
                  some it0 := by
                rw [List.find?_cons_of_neg _ (by simp [hn2])] at hfind
                exact hfind
              have h2 := hrec.2 it0 hfind'
              refine ⟨h2.1, h2.2.1, ?_⟩
              rw [h2.2.2, hdup]
              simp [cntDecl, List.countP_cons, hn2]
          · have hanyf : (ds.any (fun v => v.ident.id = some n2)) = false := by
              simpa using hany
            rw [declGo_step_accept ds ss es n2 oty pfx0 par0 rest hanyf]
            have hds' : ∀ v ∈ ds ++ [⟨⟨true, some n2, oty⟩, pfx0, par0⟩],
                ¬ (v.ident.id = some n) := by
              intro v hv
              rcases List.mem_append.mp hv with hv | hv
              · exact hds v hv
              · simp only [List.mem_singleton] at hv
                subst hv
                simp [hn2]
            have hrec := ih (ds ++ [⟨⟨true, some n2, oty⟩, pfx0, par0⟩]) ss es hds'
            constructor
            · intro hc0
              have hc0' : cntDecl n rest = 0 := by
                simpa [cntDecl, List.countP_cons, hn2] using hc0
              exact hrec.1 hc0'
            · intro it0 hfind
              have hfind' : rest.find?
                  (fun it => it.ident.is_declaration && decide (it.ident.id = some n)) =
                  some it0 := by
                rw [List.find?_cons_of_neg _ (by simp [hn2])] at hfind
                exact hfind
              have h2 := hrec.2 it0 hfind'
              refine ⟨h2.1, ?_, ?_⟩
              · rw [h2.2.1]
                simp [cntNamed, List.countP_append, List.countP_cons, hn2]
              · rw [h2.2.2]
                simp [cntDecl, List.countP_cons, hn2]

theorem resolveGo_step_named (done : List IdItem) (d : IdItem)
    (rest : List IdItem) (m : String) (hid : d.ident.id = some m) :
    resolveGo done (d :: rest) = resolveGo (done ++ [d]) rest := by
  simp [resolveGo, hid]

theorem resolveGo_step_unnamed (done : List IdItem) (d : IdItem)
    (rest : List IdItem) (hid : d.ident.id = none) :
    resolveGo done (d :: rest) =
      resolveGo (done ++ [⟨⟨d.ident.is_declaration,
        some (freshTok ((done.map (fun v => v.ident.id) ++
          rest.map (fun v => v.ident.id)).filterMap (fun o => o))),
        d.ident.type⟩, d.pfx, d.par⟩]) rest := by
  simp [resolveGo, hid]

theorem resolveGo_pres_named (n : String) :
    ∀ (ds done : List IdItem),
      (∃ v ∈ done ++ ds, v.ident.id = some n) →
      ∃ v ∈ resolveGo done ds, v.ident.id = some n := by
  intro ds
  induction ds with
  | nil =>
    intro done h
    simpa [resolveGo] using h
  | cons d rest ih =>
    intro done h
    cases hid : d.ident.id with
    | some m =>
      rw [resolveGo_step_named done d rest m hid]
      apply ih
      obtain ⟨v, hv, hvn⟩ := h
      refine ⟨v, ?_, hvn⟩
      rcases List.mem_append.mp hv with hv | hv
      · simp [hv]
      · rcases List.mem_cons.mp hv with rfl | hv
        · simp
        · simp [hv]
    | none =>
      rw [resolveGo_step_unnamed done d rest hid]
      apply ih
      obtain ⟨v, hv, hvn⟩ := h
      rcases List.mem_append.mp hv with hv | hv
      · exact ⟨v, by simp [hv], hvn⟩
      · rcases List.mem_cons.mp hv with rfl | hv
        · rw [hid] at hvn
          cases hvn
        · exact ⟨v, by simp [hv], hvn⟩

/-- C6: in the declare phase, a later declaration explicitly named like an
already-accepted one is dropped with exactly one DuplicateIdentifier error:
with exactly two declarations named n among the discovered identifiers, the
declare phase records exactly one redefinition error for n, accepts exactly
one declaration named n — the first-discovered one — and the name stays
resolvable: a named reference to n produces no error in the search phase run
against the resolved accepted declarations. -/
theorem declare_phase_duplicate (items : List IdItem) (n : String)
    (hcount : cntDecl n items = 2) :
    cntDup n (declGo [] [] [] items).2.2 = 1 ∧
    cntNamed n (declGo [] [] [] items).1 = 1 ∧
    (∀ it0, items.find?
        (fun it => it.ident.is_declaration && decide (it.ident.id = some n)) =
        some it0 → it0 ∈ (declGo [] [] [] items).1) ∧
    (∀ (ty : Option String) (pfx : List String) (par : CValue),
      (searchStep (resolveGo [] (declGo [] [] [] items).1)
        ⟨⟨false, some n, ty⟩, pfx, par⟩).2 = []) := by
  have hB := (declGo_no_named n items [] [] [] (by simp)).2
  have hex : ∃ it0, items.find?
      (fun it => it.ident.is_declaration && decide (it.ident.id = some n)) =
      some it0 := by
    have hpos : 0 < cntDecl n items := by omega
    rw [cntDecl, List.countP_pos_iff] at hpos
    obtain ⟨a, ha, hpa⟩ := hpos
    have hs : (items.find?
        (fun it => it.ident.is_declaration && decide (it.ident.id = some n))).isSome :=
      List.find?_isSome.mpr ⟨a, ha, hpa⟩
    exact Option.isSome_iff_exists.mp hs
  obtain ⟨it0, hfind⟩ := hex
  have h2 := hB it0 hfind
  have hnamed1 : cntNamed n (declGo [] [] [] items).1 = 1 := by
    rw [h2.2.1]
    simp [cntNamed]
  refine ⟨?_, hnamed1, ?_, ?_⟩
  · rw [h2.2.2, hcount]
    simp [cntDup]
  · intro it1 hfind1
    rw [hfind] at hfind1
    obtain rfl : it0 = it1 := by
      simpa using hfind1
    exact h2.1
  · intro ty pfx par
    have hexn : ∃ v ∈ (declGo [] [] [] items).1, v.ident.id = some n := by
      have hpos : 0 < cntNamed n (declGo [] [] [] items).1 := by
        rw [hnamed1]; omega
      rw [cntNamed, List.countP_pos_iff] at hpos
      obtain ⟨v, hv, hpv⟩ := hpos
      exact ⟨v, hv, by simpa using hpv⟩
    have hexr : ∃ v ∈ resolveGo [] (declGo [] [] [] items).1,
        v.ident.id = some n :=
      resolveGo_pres_named n (declGo [] [] [] items).1 [] (by simpa using hexn)
    have hany : ((resolveGo [] (declGo [] [] [] items).1).any
        (fun v => v.ident.id = some n)) = true := by
      rw [List.any_eq_true]
      obtain ⟨v, hv, hvn⟩ := hexr
      exact ⟨v, hv, by simp [hvn]⟩
    simp [searchStep, hany]

/-- Instantiation of the hypotheses of the duplicate-declaration theorem at a
concrete item list with two declarations named x. -/
theorem declare_phase_duplicate_witness :
    cntDup "x"
      (declGo [] [] [] [⟨⟨true, some "x", none⟩, ["a"], CValue.vdict []⟩,
        ⟨⟨true, some "x", none⟩, ["b"], CValue.vdict []⟩]).2.2 = 1 ∧
    cntNamed "x"
      (declGo [] [] [] [⟨⟨true, some "x", none⟩, ["a"], CValue.vdict []⟩,
        ⟨⟨true, some "x", none⟩, ["b"], CValue.vdict []⟩]).1 = 1 ∧
    (∀ it0, [⟨⟨true, some "x", none⟩, ["a"], CValue.vdict []⟩,
        ⟨⟨true, some "x", none⟩, ["b"], CValue.vdict []⟩].find?
        (fun it => it.ident.is_declaration && decide (it.ident.id = some "x")) =
        some it0 →
      it0 ∈ (declGo [] [] [] [⟨⟨true, some "x", none⟩, ["a"], CValue.vdict []⟩,
        ⟨⟨true, some "x", none⟩, ["b"], CValue.vdict []⟩]).1) ∧
    (∀ (ty : Option String) (pfx : List String) (par : CValue),
      (searchStep (resolveGo [] (declGo [] [] []
          [⟨⟨true, some "x", none⟩, ["a"], CValue.vdict []⟩,
           ⟨⟨true, some "x", none⟩, ["b"], CValue.vdict []⟩]).1)
        ⟨⟨false, some "x", ty⟩, pfx, par⟩).2 = []) :=
  declare_phase_duplicate
    [⟨⟨true, some "x", none⟩, ["a"], CValue.vdict []⟩,
     ⟨⟨true, some "x", none⟩, ["b"], CValue.vdict []⟩] "x" (by decide)

/-- C7: in the search phase, against the accepted declarations: an explicitly
named reference matching no accepted name yields exactly one
UnresolvedIdentifier error and stays unchanged; an unnamed typed reference
binds to the first accepted declaration of matching type (taking its name)
with no error, and yields exactly one UnresolvableByType error when no
declaration of that type exists; a reference neither named nor typed is never
rebound and never produces any error, whatever the declarations. -/
theorem search_phase_resolution (ds : List IdItem) :
    (∀ (b : Bool) (n : String) (ty : Option String) (pfx : List String)
       (par : CValue),
      (∀ v ∈ ds, ¬ (v.ident.id = some n)) →
      searchStep ds ⟨⟨b, some n, ty⟩, pfx, par⟩ =
        (⟨⟨b, some n, ty⟩, pfx, par⟩,
         [⟨findMsg n, some (joinDots pfx), some par⟩])) ∧
    (∀ (b : Bool) (ty : String) (pfx : List String) (par : CValue)
       (pre post : List IdItem) (v : IdItem) (m : String),
      ds = pre ++ v :: post →
      (∀ w ∈ pre, ¬ (w.ident.type = some ty)) →
      v.ident.type = some ty → v.ident.id = some m →
      searchStep ds ⟨⟨b, none, some ty⟩, pfx, par⟩ =
        (⟨⟨b, some m, some ty⟩, pfx, par⟩, [])) ∧
    (∀ (b : Bool) (ty : String) (pfx : List String) (par : CValue),
      (∀ w ∈ ds, ¬ (w.ident.type = some ty)) →
      searchStep ds ⟨⟨b, none, some ty⟩, pfx, par⟩ =
        (⟨⟨b, none, some ty⟩, pfx, par⟩,
         [⟨typeMsg ty, some (joinDots pfx), some par⟩])) ∧
    (∀ (b : Bool) (pfx : List String) (par : CValue),
      searchStep ds ⟨⟨b, none, none⟩, pfx, par⟩ =
        (⟨⟨b, none, none⟩, pfx, par⟩, [])) := by
  refine ⟨?_, ?_, ?_, ?_⟩
  · intro b n ty pfx par hnone
    have hany : (ds.any (fun v => v.ident.id = some n)) = false := by
      rw [List.any_eq_false]
      intro v hv
      simpa using hnone v hv
    simp [searchStep, hany]
  · intro b ty pfx par pre post v m hsplit hpre hty hid
    have hfind : ds.find? (fun w => w.ident.type = some ty) = some v := by
      subst hsplit
      rw [List.find?_append]
      have h1 : pre.find? (fun w => w.ident.type = some ty) = none := by
        rw [List.find?_eq_none]
        intro w hw
        simpa using hpre w hw
      rw [h1, List.find?_cons_of_pos _ (by simp [hty])]
      rfl
    simp [searchStep, hfind, hid]
  · intro b ty pfx par hnone
    have hfind : ds.find? (fun w => w.ident.type = some ty) = none := by
      rw [List.find?_eq_none]
      intro w hw
      simpa using hnone w hw
    simp [searchStep, hfind]
  · intro b pfx par
    simp [searchStep]

/-- Instantiation of the hypotheses of the search-phase theorem against one
concrete accepted declaration of name a and type T. -/
theorem search_phase_resolution_witness :
    (searchStep [⟨⟨true, some "a", some "T"⟩, ["p"], CValue.vdict []⟩]
        ⟨⟨false, some "b", none⟩, ["q"], CValue.vnone⟩ =
      (⟨⟨false, some "b", none⟩, ["q"], CValue.vnone⟩,
       [⟨findMsg "b", some (joinDots ["q"]), some CValue.vnone⟩])) ∧
    (searchStep [⟨⟨true, some "a", some "T"⟩, ["p"], CValue.vdict []⟩]
        ⟨⟨false, none, some "T"⟩, ["q"], CValue.vnone⟩ =
      (⟨⟨false, some "a", some "T"⟩, ["q"], CValue.vnone⟩, [])) ∧
    (searchStep [⟨⟨true, some "a", some "T"⟩, ["p"], CValue.vdict []⟩]
        ⟨⟨false, none, some "U"⟩, ["q"], CValue.vnone⟩ =
      (⟨⟨false, none, some "U"⟩, ["q"], CValue.vnone⟩,
       [⟨typeMsg "U", some (joinDots ["q"]), some CValue.vnone⟩])) ∧
    (searchStep [⟨⟨true, some "a", some "T"⟩, ["p"], CValue.vdict []⟩]
        ⟨⟨false, none, none⟩, ["q"], CValue.vnone⟩ =
      (⟨⟨false, none, none⟩, ["q"], CValue.vnone⟩, [])) :=
  ⟨(search_phase_resolution
      [⟨⟨true, some "a", some "T"⟩, ["p"], CValue.vdict []⟩]).1
     false "b" none ["q"] CValue.vnone (by decide),
   (search_phase_resolution
      [⟨⟨true, some "a", some "T"⟩, ["p"], CValue.vdict []⟩]).2.1
     false "T" ["q"] CValue.vnone []
     [] ⟨⟨true, some "a", some "T"⟩, ["p"], CValue.vdict []⟩ "a"
     rfl (by simp) (by decide) (by decide),
   (search_phase_resolution
      [⟨⟨true, some "a", some "T"⟩, ["p"], CValue.vdict []⟩]).2.2.1
     false "U" ["q"] CValue.vnone (by decide),
   (search_phase_resolution
      [⟨⟨true, some "a", some "T"⟩, ["p"], CValue.vdict []⟩]).2.2.2
     false ["q"] CValue.vnone⟩

/-! Lemmas for the second-run analysis: the declare loop's search and error
parameters are pure accumulators, and its accepted list only grows. -/

theorem declGo_shift (items : List IdItem) :
    ∀ (ds ss : List IdItem) (es : List ErrorRecord),
      declGo ds ss es items =
        ((declGo ds [] [] items).1,
         ss ++ (declGo ds [] [] items).2.1,
         es ++ (declGo ds [] [] items).2.2) := by
  induction items with
  | nil => intro ds ss es; simp [declGo]
  | cons it rest ih =>
    intro ds ss es
    obtain ⟨⟨b, oid, oty⟩, pfx0, par0⟩ := it
    cases b with
    | false =>
      rw [declGo_step_search, declGo_step_search]
      simp only [List.nil_append]
      have h1 := ih ds (ss ++ [⟨⟨false, oid, oty⟩, pfx0, par0⟩]) es
      have h2 := ih ds [⟨⟨false, oid, oty⟩, pfx0, par0⟩] []
      rw [h1, h2]
      simp
    | true =>
      cases oid with
      | none =>
        rw [declGo_step_unnamed, declGo_step_unnamed]
        exact ih (ds ++ [⟨⟨true, none, oty⟩, pfx0, par0⟩]) ss es
      | some n2 =>
        by_cases hany : (ds.any (fun v => v.ident.id = some n2)) = true
        · rw [declGo_step_drop ds ss es n2 oty pfx0 par0 rest hany,
            declGo_step_drop ds [] [] n2 oty pfx0 par0 rest hany]
          simp only [List.nil_append]
          have h1 := ih ds ss
            (es ++ [⟨dupMsg n2, some (joinDots pfx0), some par0⟩])
          have h2 := ih ds [] [⟨dupMsg n2, some (joinDots pfx0), some par0⟩]
          rw [h1, h2]
          simp
        · have hf : (ds.any (fun v => v.ident.id = some n2)) = false := by
            simpa using hany
          rw [declGo_step_accept ds ss es n2 oty pfx0 par0 rest hf,
            declGo_step_accept ds [] [] n2 oty pfx0 par0 rest hf]
          exact ih (ds ++ [⟨⟨true, some n2, oty⟩, pfx0, par0⟩]) ss es

theorem declGo_ds_prefix (items : List IdItem) :
    ∀ (ds ss : List IdItem) (es : List ErrorRecord),
      ∃ t, (declGo ds ss es items).1 = ds ++ t := by
  induction items with
  | nil => intro ds ss es; exact ⟨[], by simp [declGo]⟩
  | cons it rest ih =>
    intro ds ss es
    obtain ⟨⟨b, oid, oty⟩, pfx0, par0⟩ := it
    cases b with
    | false =>
      rw [declGo_step_search]
      exact ih ds _ es
    | true =>
      cases oid with
      | none =>
        rw [declGo_step_unnamed]
        obtain ⟨t, ht⟩ := ih (ds ++ [⟨⟨true, none, oty⟩, pfx0, par0⟩]) ss es
        exact ⟨⟨⟨true, none, oty⟩, pfx0, par0⟩ :: t, by simp [ht]⟩
      | some n2 =>
        by_cases hany : (ds.any (fun v => v.ident.id = some n2)) = true
        · rw [declGo_step_drop ds ss es n2 oty pfx0 par0 rest hany]
          exact ih ds ss _
        · have hf : (ds.any (fun v => v.ident.id = some n2)) = false := by
            simpa using hany
          rw [declGo_step_accept ds ss es n2 oty pfx0 par0 rest hf]
          obtain ⟨t, ht⟩ := ih (ds ++ [⟨⟨true, some n2, oty⟩, pfx0, par0⟩]) ss es
          exact ⟨⟨⟨true, some n2, oty⟩, pfx0, par0⟩ :: t, by simp [ht]⟩

/-- Declarations newly accepted by the declare loop past its initial state. -/
def newAccepted (ds items : List IdItem) : List IdItem :=
  (declGo ds [] [] items).1.drop ds.length

/-- References filed by the declare loop. -/
def newSearching (ds items : List IdItem) : List IdItem :=
  (declGo ds [] [] items).2.1

/-- Errors recorded by the declare loop. -/
def newErrors (ds items : List IdItem) : List ErrorRecord :=
  (declGo ds [] [] items).2.2

theorem newAccepted_nil (ds : List IdItem) : newAccepted ds [] = [] := by
  simp [newAccepted, declGo]

theorem newAccepted_search (ds : List IdItem) (oid oty : Option String)
    (pfx0 : List String) (par0 : CValue) (rest : List IdItem) :
    newAccepted ds (⟨⟨false, oid, oty⟩, pfx0, par0⟩ :: rest) =
      newAccepted ds rest := by
  unfold newAccepted
  rw [declGo_step_search]
  have h := declGo_shift rest ds ([] ++ [⟨⟨false, oid, oty⟩, pfx0, par0⟩]) []
  rw [h]

theorem newAccepted_drop (ds : List IdItem) (n2 : String) (oty : Option String)
    (pfx0 : List String) (par0 : CValue) (rest : List IdItem)
    (hany : (ds.any (fun v => v.ident.id = some n2)) = true) :
    newAccepted ds (⟨⟨true, some n2, oty⟩, pfx0, par0⟩ :: rest) =
      newAccepted ds rest := by
  unfold newAccepted
  rw [declGo_step_drop ds [] [] n2 oty pfx0 par0 rest hany]
  have h := declGo_shift rest ds []
    ([] ++ [⟨dupMsg n2, some (joinDots pfx0), some par0⟩])
  rw [h]

theorem newAccepted_accept (ds : List IdItem) (n2 : String) (oty : Option String)
    (pfx0 : List String) (par0 : CValue) (rest : List IdItem)
    (hany : (ds.any (fun v => v.ident.id = some n2)) = false) :
    newAccepted ds (⟨⟨true, some n2, oty⟩, pfx0, par0⟩ :: rest) =
      ⟨⟨true, some n2, oty⟩, pfx0, par0⟩ ::
        newAccepted (ds ++ [⟨⟨true, some n2, oty⟩, pfx0, par0⟩]) rest := by
  unfold newAccepted
  rw [declGo_step_accept ds [] [] n2 oty pfx0 par0 rest hany]
  obtain ⟨t, ht⟩ :=
    declGo_ds_prefix rest (ds ++ [⟨⟨true, some n2, oty⟩, pfx0, par0⟩]) [] []
  rw [ht, List.drop_left, List.append_assoc, List.drop_left]
  rfl

theorem newAccepted_unnamed (ds : List IdItem) (oty : Option String)
    (pfx0 : List String) (par0 : CValue) (rest : List IdItem) :
    newAccepted ds (⟨⟨true, none, oty⟩, pfx0, par0⟩ :: rest) =
      ⟨⟨true, none, oty⟩, pfx0, par0⟩ ::
        newAccepted (ds ++ [⟨⟨true, none, oty⟩, pfx0, par0⟩]) rest := by
  unfold newAccepted
  rw [declGo_step_unnamed]
  obtain ⟨t, ht⟩ :=
    declGo_ds_prefix rest (ds ++ [⟨⟨true, none, oty⟩, pfx0, par0⟩]) [] []
  rw [ht, List.drop_left, List.append_assoc, List.drop_left]
  rfl

theorem newSearching_nil (ds : List IdItem) : newSearching ds [] = [] := by
  simp [newSearching, declGo]

theorem newSearching_search (ds : List IdItem) (oid oty : Option String)
    (pfx0 : List String) (par0 : CValue) (rest : List IdItem) :
    newSearching ds (⟨⟨false, oid, oty⟩, pfx0, par0⟩ :: rest) =
      ⟨⟨false, oid, oty⟩, pfx0, par0⟩ :: newSearching ds rest := by
  unfold newSearching
  rw [declGo_step_search]
  have h := declGo_shift rest ds ([] ++ [⟨⟨false, oid, oty⟩, pfx0, par0⟩]) []
  rw [h]
  simp

theorem newSearching_drop (ds : List IdItem) (n2 : String) (oty : Option String)
    (pfx0 : List String) (par0 : CValue) (rest : List IdItem)
    (hany : (ds.any (fun v => v.ident.id = some n2)) = true) :
    newSearching ds (⟨⟨true, some n2, oty⟩, pfx0, par0⟩ :: rest) =
      newSearching ds rest := by
  unfold newSearching
  rw [declGo_step_drop ds [] [] n2 oty pfx0 par0 rest hany]
  have h := declGo_shift rest ds []
    ([] ++ [⟨dupMsg n2, some (joinDots pfx0), some par0⟩])
  rw [h]
  simp

theorem newSearching_accept (ds : List IdItem) (n2 : String)
    (oty : Option String) (pfx0 : List String) (par0 : CValue)
    (rest : List IdItem)
    (hany : (ds.any (fun v => v.ident.id = some n2)) = false) :
    newSearching ds (⟨⟨true, some n2, oty⟩, pfx0, par0⟩ :: rest) =
      newSearching (ds ++ [⟨⟨true, some n2, oty⟩, pfx0, par0⟩]) rest := by
  unfold newSearching
  rw [declGo_step_accept ds [] [] n2 oty pfx0 par0 rest hany]

theorem newSearching_unnamed (ds : List IdItem) (oty : Option String)
    (pfx0 : List String) (par0 : CValue) (rest : List IdItem) :
    newSearching ds (⟨⟨true, none, oty⟩, pfx0, par0⟩ :: rest) =
      newSearching (ds ++ [⟨⟨true, none, oty⟩, pfx0, par0⟩]) rest := by
  unfold newSearching
  rw [declGo_step_unnamed]

theorem newErrors_nil (ds : List IdItem) : newErrors ds [] = [] := by
  simp [newErrors, declGo]

theorem newErrors_search (ds : List IdItem) (oid oty : Option String)
    (pfx0 : List String) (par0 : CValue) (rest : List IdItem) :
    newErrors ds (⟨⟨false, oid, oty⟩, pfx0, par0⟩ :: rest) =
      newErrors ds rest := by
  unfold newErrors
  rw [declGo_step_search]
  have h := declGo_shift rest ds ([] ++ [⟨⟨false, oid, oty⟩, pfx0, par0⟩]) []
  rw [h]
  simp

theorem newErrors_drop (ds : List IdItem) (n2 : String) (oty : Option String)
    (pfx0 : List String) (par0 : CValue) (rest : List IdItem)
    (hany : (ds.any (fun v => v.ident.id = some n2)) = true) :
    newErrors ds (⟨⟨true, some n2, oty⟩, pfx0, par0⟩ :: rest) =
      ⟨dupMsg n2, some (joinDots pfx0), some par0⟩ :: newErrors ds rest := by
  unfold newErrors
  rw [declGo_step_drop ds [] [] n2 oty pfx0 par0 rest hany]
  have h := declGo_shift rest ds []
    ([] ++ [⟨dupMsg n2, some (joinDots pfx0), some par0⟩])
  rw [h]
  simp

theorem newErrors_accept (ds : List IdItem) (n2 : String) (oty : Option String)
    (pfx0 : List String) (par0 : CValue) (rest : List IdItem)
    (hany : (ds.any (fun v => v.ident.id = some n2)) = false) :
    newErrors ds (⟨⟨true, some n2, oty⟩, pfx0, par0⟩ :: rest) =
      newErrors (ds ++ [⟨⟨true, some n2, oty⟩, pfx0, par0⟩]) rest := by
  unfold newErrors
  rw [declGo_step_accept ds [] [] n2 oty pfx0 par0 rest hany]

theorem newErrors_unnamed (ds : List IdItem) (oty : Option String)
    (pfx0 : List String) (par0 : CValue) (rest : List IdItem) :
    newErrors ds (⟨⟨true, none, oty⟩, pfx0, par0⟩ :: rest) =
      newErrors (ds ++ [⟨⟨true, none, oty⟩, pfx0, par0⟩]) rest := by
  unfold newErrors
  rw [declGo_step_unnamed]

/-! Resolve-phase lemmas: the generated names are fresh, names are preserved,
and an all-named list is left untouched. -/

/-- The explicit names carried by a list of items. -/
def namedIds (l : List IdItem) : List String :=
  l.filterMap (fun v => v.ident.id)

/-- Correspondence between an item and its resolved identifier: same
declaration flag, and any explicit name is preserved. -/
def rIdent (v : IdItem) (w : Ident) : Prop :=
  w.is_declaration = v.ident.is_declaration ∧
  ∀ n, v.ident.id = some n → w.id = some n

/-- Item-level version of rIdent. -/
def rItem (v w : IdItem) : Prop := rIdent v w.ident

theorem maxLen_ge (l : List String) : ∀ s ∈ l, s.length ≤ maxLen l := by
  induction l with
  | nil => simp
  | cons x rest ih =>
    intro s hs
    rcases List.mem_cons.mp hs with rfl | hs
    · simp [maxLen]
    · have := ih s hs
      simp only [maxLen, List.foldr_cons] at *
      omega

theorem freshTok_length (used : List String) :
    (freshTok used).length = maxLen used + 1 := by
  simp [freshTok, String.length]

theorem freshTok_not_mem (used : List String) : freshTok used ∉ used := by
  intro h
  have h1 := maxLen_ge used _ h
  rw [freshTok_length] at h1
  omega

theorem resolveGo_noop (ds : List IdItem) :
    ∀ done, (∀ v ∈ ds, (v.ident.id).isSome = true) →
      resolveGo done ds = done ++ ds := by
  induction ds with
  | nil => intro done _; simp [resolveGo]
  | cons d rest ih =>
    intro done hsome
    cases hid : d.ident.id with
    | none =>
      have := hsome d (List.mem_cons_self _ _)
      rw [hid] at this
      cases this
    | some m =>
      rw [resolveGo_step_named done d rest m hid]
      rw [ih (done ++ [d]) (fun v hv => hsome v (List.mem_cons_of_mem _ hv))]
      simp

theorem resolveGo_forall2 (ds : List IdItem) :
    ∀ done, ∃ tail, resolveGo done ds = done ++ tail ∧
      List.Forall₂ rItem ds tail := by
  induction ds with
  | nil => intro done; exact ⟨[], by simp [resolveGo], List.Forall₂.nil⟩
  | cons d rest ih =>
    intro done
    cases hid : d.ident.id with
    | some m =>
      rw [resolveGo_step_named done d rest m hid]
      obtain ⟨tail, ht, hf⟩ := ih (done ++ [d])
      refine ⟨d :: tail, by simp [ht], List.Forall₂.cons ⟨rfl, fun n h => h⟩ hf⟩
    | none =>
      rw [resolveGo_step_unnamed done d rest hid]
      obtain ⟨tail, ht, hf⟩ := ih (done ++
        [⟨⟨d.ident.is_declaration,
           some (freshTok ((done.map (fun v => v.ident.id) ++
             rest.map (fun v => v.ident.id)).filterMap (fun o => o))),
           d.ident.type⟩, d.pfx, d.par⟩])
      refine ⟨(⟨⟨d.ident.is_declaration,
           some (freshTok ((done.map (fun v => v.ident.id) ++
             rest.map (fun v => v.ident.id)).filterMap (fun o => o))),
           d.ident.type⟩, d.pfx, d.par⟩ : IdItem) :: tail, ?_,
        List.Forall₂.cons ⟨rfl, fun n h => by rw [hid] at h; cases h⟩ hf⟩
      rw [ht]
      simp

theorem filterMap_map_ids (l : List IdItem) :
    ((l.map (fun v => v.ident.id)).filterMap (fun o => o)) = namedIds l := by
  rw [List.filterMap_map]
  rfl

theorem resolveGo_ids (ds : List IdItem) :
    ∀ done, (∀ v ∈ done, (v.ident.id).isSome = true) →
      (namedIds (done ++ ds)).Nodup →
      (∀ v ∈ resolveGo done ds, (v.ident.id).isSome = true) ∧
      (namedIds (resolveGo done ds)).Nodup := by
  induction ds with
  | nil =>
    intro done h1 h2
    constructor
    · simpa [resolveGo] using h1
    · simpa [resolveGo] using h2
  | cons d rest ih =>
    intro done h1 h2
    cases hid : d.ident.id with
    | some m =>
      rw [resolveGo_step_named done d rest m hid]
      apply ih (done ++ [d])
      · intro v hv
        rcases List.mem_append.mp hv with hv | hv
        · exact h1 v hv
        · simp only [List.mem_singleton] at hv
          subst hv
          rw [hid]
          rfl
      · have : done ++ [d] ++ rest = done ++ d :: rest := by simp
        rw [this]
        exact h2
    | none =>
      rw [resolveGo_step_unnamed done d rest hid]
      have hused : ((done.map (fun v => v.ident.id) ++
          rest.map (fun v => v.ident.id)).filterMap (fun o => o)) =
          namedIds done ++ namedIds rest := by
        rw [List.filterMap_append, filterMap_map_ids, filterMap_map_ids]
      have hnd : (namedIds (done ++ d :: rest)) =
          namedIds done ++ namedIds rest := by
        simp [namedIds, List.filterMap_append, List.filterMap_cons, hid]
      apply ih
      · intro v hv
        rcases List.mem_append.mp hv with hv | hv
        · exact h1 v hv
        · simp only [List.mem_singleton] at hv
          subst hv
          rfl
      · have hgoal : namedIds ((done ++ [⟨⟨d.ident.is_declaration,
            some (freshTok ((done.map (fun v => v.ident.id) ++
              rest.map (fun v => v.ident.id)).filterMap (fun o => o))),
            d.ident.type⟩, d.pfx, d.par⟩]) ++ rest) =
            namedIds done ++
              freshTok (namedIds done ++ namedIds rest) :: namedIds rest := by
          simp [namedIds, List.filterMap_append, List.filterMap_cons, hused]
        rw [hgoal]
        rw [hnd] at h2
        have hfresh := freshTok_not_mem (namedIds done ++ namedIds rest)
        rw [List.nodup_middle, List.nodup_cons]
        exact ⟨hfresh, h2⟩

theorem declGo_namedIds_nodup (items : List IdItem) :
    ∀ (ds ss : List IdItem) (es : List ErrorRecord),
      (namedIds ds).Nodup → (namedIds (declGo ds ss es items).1).Nodup := by
  induction items with
  | nil => intro ds ss es h; simpa [declGo] using h
  | cons it rest ih =>
    intro ds ss es h
    obtain ⟨⟨b, oid, oty⟩, pfx0, par0⟩ := it
    cases b with
    | false =>
      rw [declGo_step_search]
      exact ih ds _ es h
    | true =>
      cases oid with
      | none =>
        rw [declGo_step_unnamed]
        apply ih
        simpa [namedIds, List.filterMap_append, List.filterMap_cons] using h
      | some n2 =>
        by_cases hany : (ds.any (fun v => v.ident.id = some n2)) = true
        · rw [declGo_step_drop ds ss es n2 oty pfx0 par0 rest hany]
          exact ih ds ss _ h
        · have hf : (ds.any (fun v => v.ident.id = some n2)) = false := by
            simpa using hany
          rw [declGo_step_accept ds ss es n2 oty pfx0 par0 rest hf]
          apply ih
          have hnm : n2 ∉ namedIds ds := by
            intro hmem
            obtain ⟨v, hv, hvn⟩ := List.mem_filterMap.mp hmem
            rw [List.any_eq_false] at hf
            exact absurd (by simpa using hvn) (by simpa using hf v hv)
          have : namedIds (ds ++ [⟨⟨true, some n2, oty⟩, pfx0, par0⟩]) =
              namedIds ds ++ [n2] := by
            simp [namedIds, List.filterMap_append, List.filterMap_cons]
          rw [this]
          simp [List.nodup_append, h, hnm]

theorem declGo_ss_false (items : List IdItem) :
    ∀ (ds ss : List IdItem) (es : List ErrorRecord),
      (∀ v ∈ ss, v.ident.is_declaration = false) →
      ∀ v ∈ (declGo ds ss es items).2.1, v.ident.is_declaration = false := by
  induction items with
  | nil => intro ds ss es h; simpa [declGo] using h
  | cons it rest ih =>
    intro ds ss es h
    obtain ⟨⟨b, oid, oty⟩, pfx0, par0⟩ := it
    cases b with
    | false =>
      rw [declGo_step_search]
      apply ih
      intro v hv
      rcases List.mem_append.mp hv with hv | hv
      · exact h v hv
      · simp only [List.mem_singleton] at hv
        subst hv
        rfl
    | true =>
      cases oid with
      | none =>
        rw [declGo_step_unnamed]
        exact ih _ ss es h
      | some n2 =>
        by_cases hany : (ds.any (fun v => v.ident.id = some n2)) = true
        · rw [declGo_step_drop ds ss es n2 oty pfx0 par0 rest hany]
          exact ih ds ss _ h
        · have hf : (ds.any (fun v => v.ident.id = some n2)) = false := by
            simpa using hany
          rw [declGo_step_accept ds ss es n2 oty pfx0 par0 rest hf]
          exact ih _ ss es h

/-! Search-phase lemmas: the accumulators shift out, the step only reads the
identifiers of the accepted list, and a second application of the step to its
own output changes nothing. -/

theorem searchGo_shift (l : List IdItem) :
    ∀ (ds acc : List IdItem) (es : List ErrorRecord),
      searchGo ds acc es l =
        (acc ++ (searchGo ds [] [] l).1, es ++ (searchGo ds [] [] l).2) := by
  induction l with
  | nil => intro ds acc es; simp [searchGo]
  | cons it rest ih =>
    intro ds acc es
    simp only [searchGo]
    have h1 := ih ds (acc ++ [(searchStep ds it).1]) (es ++ (searchStep ds it).2)
    have h2 := ih ds ([] ++ [(searchStep ds it).1]) ([] ++ (searchStep ds it).2)
    rw [h1, h2]
    simp

theorem searchStep_pt (ds : List IdItem) (it : IdItem) :
    (searchStep ds it).1.pfx = it.pfx ∧
    (searchStep ds it).1.ident.is_declaration = it.ident.is_declaration := by
  obtain ⟨⟨b, oid, oty⟩, pfx0, par0⟩ := it
  cases oid with
  | some n => simp [searchStep]
  | none =>
    cases oty with
    | none => simp [searchStep]
    | some ty => simp [searchStep]

theorem any_named_congr (n : String) :
    ∀ (ds1 ds2 : List IdItem),
      ds1.map (fun v => v.ident) = ds2.map (fun v => v.ident) →
      (ds1.any (fun v => v.ident.id = some n)) =
        (ds2.any (fun v => v.ident.id = some n)) := by
  intro ds1
  induction ds1 with
  | nil =>
    intro ds2 h
    cases ds2 with
    | nil => rfl
    | cons b l => exact absurd h (by simp)
  | cons a l ih =>
    intro ds2 h
    cases ds2 with
    | nil => exact absurd h (by simp)
    | cons b l2 =>
      simp only [List.map_cons, List.cons.injEq] at h
      obtain ⟨hab, hl⟩ := h
      rw [List.any_cons, List.any_cons, hab, ih l2 hl]

theorem find?_type_congr (ty : String) :
    ∀ (ds1 ds2 : List IdItem),
      ds1.map (fun v => v.ident) = ds2.map (fun v => v.ident) →
      (ds1.find? (fun v => v.ident.type = some ty)).map (fun v => v.ident) =
        (ds2.find? (fun v => v.ident.type = some ty)).map (fun v => v.ident) := by
  intro ds1
  induction ds1 with
  | nil =>
    intro ds2 h
    cases ds2 with
    | nil => rfl
    | cons b l => exact absurd h (by simp)
  | cons a l ih =>
    intro ds2 h
    cases ds2 with
    | nil => exact absurd h (by simp)
    | cons b l2 =>
      simp only [List.map_cons, List.cons.injEq] at h
      obtain ⟨hab, hl⟩ := h
      by_cases hty : (a.ident.type = some ty)
      · rw [List.find?_cons_of_pos _ (by simpa using hty),
          List.find?_cons_of_pos _ (by simp [← hab, hty])]
        simp [hab]
      · rw [List.find?_cons_of_neg _ (by simpa using hty),
          List.find?_cons_of_neg _ (by simp [← hab, hty])]
        exact ih l2 hl

theorem searchStep_congr (ds1 ds2 : List IdItem) (it : IdItem)
    (h : ds1.map (fun v => v.ident) = ds2.map (fun v => v.ident)) :
    searchStep ds1 it = searchStep ds2 it := by
  obtain ⟨⟨b, oid, oty⟩, pfx0, par0⟩ := it
  cases oid with
  | some n => simp [searchStep, any_named_congr n ds1 ds2 h]
  | none =>
    cases oty with
    | none => rfl
    | some ty =>
      have hf := find?_type_congr ty ds1 ds2 h
      cases h1 : ds1.find? (fun v => v.ident.type = some ty) with
      | none =>
        cases h2 : ds2.find? (fun v => v.ident.type = some ty) with
        | none => simp [searchStep, h1, h2]
        | some w =>
          rw [h1, h2] at hf
          exact absurd hf (by simp)
      | some v =>
        cases h2 : ds2.find? (fun v => v.ident.type = some ty) with
        | none =>
          rw [h1, h2] at hf
          exact absurd hf (by simp)
        | some w =>
          rw [h1, h2] at hf
          have hvw : v.ident = w.ident := by simpa using hf
          simp [searchStep, h1, h2, hvw]

theorem searchStep_twice (rs : List IdItem) (it it2 : IdItem)
    (hsome : ∀ v ∈ rs, (v.ident.id).isSome = true)
    (hident : it2.ident = (searchStep rs it).1.ident)
    (hpfx : it2.pfx = it.pfx) :
    (searchStep rs it2).1.ident = (searchStep rs it).1.ident ∧
    ((searchStep rs it2).2).map eProj = ((searchStep rs it).2).map eProj := by
  obtain ⟨⟨b, oid, oty⟩, pfx0, par0⟩ := it
  obtain ⟨⟨b2, oid2, oty2⟩, pfx2, par2⟩ := it2
  simp only at hpfx
  cases oid with
  | some n =>
    have hout : (searchStep rs ⟨⟨b, some n, oty⟩, pfx0, par0⟩).1.ident =
        ⟨b, some n, oty⟩ := by
      simp [searchStep]
    rw [hout] at hident ⊢
    simp only [IdItem.ident] at hident
    obtain ⟨rfl, rfl, rfl⟩ : b2 = b ∧ oid2 = some n ∧ oty2 = oty := by
      refine ⟨congrArg Ident.is_declaration hident,
        congrArg Ident.id hident, congrArg Ident.type hident⟩
    by_cases hany : (rs.any (fun v => v.ident.id = some n)) = true
    · simp [searchStep, hany]
    · have hf : (rs.any (fun v => v.ident.id = some n)) = false := by
        simpa using hany
      simp [searchStep, hf, eProj, hpfx]
  | none =>
    cases oty with
    | none =>
      have hout : (searchStep rs ⟨⟨b, none, none⟩, pfx0, par0⟩).1.ident =
          ⟨b, none, none⟩ := by
        simp [searchStep]
      rw [hout] at hident ⊢
      simp only [IdItem.ident] at hident
      obtain ⟨rfl, rfl, rfl⟩ : b2 = b ∧ oid2 = none ∧ oty2 = none := by
        refine ⟨congrArg Ident.is_declaration hident,
          congrArg Ident.id hident, congrArg Ident.type hident⟩
      simp [searchStep]
    | some ty =>
      cases hfind : rs.find? (fun v => v.ident.type = some ty) with
      | some v =>
        have hv := hsome v (List.mem_of_find?_eq_some hfind)
        obtain ⟨x, hx⟩ := Option.isSome_iff_exists.mp hv
        have hout : (searchStep rs ⟨⟨b, none, some ty⟩, pfx0, par0⟩).1.ident =
            ⟨b, some x, some ty⟩ := by
          simp [searchStep, hfind, hx]
        rw [hout] at hident ⊢
        simp only [IdItem.ident] at hident
        obtain ⟨rfl, rfl, rfl⟩ : b2 = b ∧ oid2 = some x ∧ oty2 = some ty := by
          refine ⟨congrArg Ident.is_declaration hident,
            congrArg Ident.id hident, congrArg Ident.type hident⟩
        have hanyx : (rs.any (fun w => w.ident.id = some x)) = true := by
          rw [List.any_eq_true]
          exact ⟨v, List.mem_of_find?_eq_some hfind, by simp [hx]⟩
        refine ⟨?_, ?_⟩
        · simp [searchStep, hanyx]
        · simp [searchStep, hfind, hx, hanyx]
      | none =>
        have hout : (searchStep rs ⟨⟨b, none, some ty⟩, pfx0, par0⟩).1.ident =
            ⟨b, none, some ty⟩ := by
          simp [searchStep, hfind]
        rw [hout] at hident ⊢
        simp only [IdItem.ident] at hident
        obtain ⟨rfl, rfl, rfl⟩ : b2 = b ∧ oid2 = none ∧ oty2 = some ty := by
          refine ⟨congrArg Ident.is_declaration hident,
            congrArg Ident.id hident, congrArg Ident.type hident⟩
        refine ⟨?_, ?_⟩
        · simp [searchStep, hfind]
        · simp [searchStep, hfind, eProj, hpfx]

theorem searchGo_fix (ss1 : List IdItem) :
    ∀ (ss2 rs rs2 : List IdItem),
      rs2.map (fun v => v.ident) = rs.map (fun v => v.ident) →
      (∀ v ∈ rs, (v.ident.id).isSome = true) →
      ss2.map (fun v => v.ident) =
        ((searchGo rs [] [] ss1).1).map (fun v => v.ident) →
      ss2.map (fun v => v.pfx) = ss1.map (fun v => v.pfx) →
      ((searchGo rs2 [] [] ss2).1).map (fun v => v.ident) =
        ss2.map (fun v => v.ident) ∧
      ((searchGo rs2 [] [] ss2).2).map eProj =
        ((searchGo rs [] [] ss1).2).map eProj := by
  induction ss1 with
  | nil =>
    intro ss2 rs rs2 h1 h2 h3 h4
    have hss2 : ss2 = [] := by
      cases ss2 with
      | nil => rfl
      | cons a l => exact absurd h4 (by simp)
    subst hss2
    simp [searchGo]
  | cons it rest ih =>
    intro ss2 rs rs2 h1 h2 h3 h4
    cases ss2 with
    | nil => exact absurd h4 (by simp)
    | cons it2 rest2 =>
      have hrun1 : searchGo rs [] [] (it :: rest) =
          ([] ++ [(searchStep rs it).1] ++ (searchGo rs [] [] rest).1,
           [] ++ (searchStep rs it).2 ++ (searchGo rs [] [] rest).2) := by
        simp only [searchGo]
        have hs := searchGo_shift rest rs ([] ++ [(searchStep rs it).1])
          ([] ++ (searchStep rs it).2)
        rw [hs]
      rw [hrun1] at h3
      simp only [List.nil_append, List.map_cons, List.map_append,
        List.cons_append, List.map_cons] at h3 h4
      have hit2 : it2.ident = (searchStep rs it).1.ident := by
        have hh := congrArg (fun l => l.headD (searchStep rs it).1.ident) h3
        simpa using hh
      have hrest2 : rest2.map (fun v => v.ident) =
          ((searchGo rs [] [] rest).1).map (fun v => v.ident) := by
        have hh := congrArg List.tail h3
        simpa using hh
      have hpit : it2.pfx = it.pfx := by
        have hh := congrArg (fun l => l.headD it.pfx) h4
        simpa using hh
      have hprest : rest2.map (fun v => v.pfx) = rest.map (fun v => v.pfx) := by
        have hh := congrArg List.tail h4
        simpa using hh
      have hcong := searchStep_congr rs2 rs it2 h1
      have htw := searchStep_twice rs it it2 h2 hit2 hpit
      have hrec := ih rest2 rs rs2 h1 h2 hrest2 hprest
      have hrun2 : searchGo rs2 [] [] (it2 :: rest2) =
          ([] ++ [(searchStep rs2 it2).1] ++ (searchGo rs2 [] [] rest2).1,
           [] ++ (searchStep rs2 it2).2 ++ (searchGo rs2 [] [] rest2).2) := by
        simp only [searchGo]
        have hs := searchGo_shift rest2 rs2 ([] ++ [(searchStep rs2 it2).1])
          ([] ++ (searchStep rs2 it2).2)
        rw [hs]
      rw [hrun2, hrun1]
      refine ⟨?_, ?_⟩
      · simp only [List.nil_append, List.cons_append, List.map_cons]
        rw [hcong, htw.1, ← hit2, hrec.1]
      · simp only [List.nil_append, List.map_append]
        rw [hcong, htw.2, hrec.2]

/-! Declare-phase fixpoint: the declare loop applied to the reassembled
identifiers accepts exactly the resolved declarations, files the searched
references unchanged, and records the same redefinitions up to the mutated
parent nodes. -/

theorem any_map_ident (ds : List IdItem) (n : String) :
    ((ds.map (fun v => v.ident)).any (fun i => i.id = some n)) =
      (ds.any (fun v => v.ident.id = some n)) := by
  induction ds with
  | nil => rfl
  | cons a l ih => simp [List.any_cons, ih]

theorem forall2_any_named (n : String) (ds ds2 : List IdItem)
    (h : List.Forall₂ rItem ds ds2)
    (ha : (ds.any (fun v => v.ident.id = some n)) = true) :
    (ds2.any (fun v => v.ident.id = some n)) = true := by
  induction h with
  | nil => exact absurd ha (by simp)
  | @cons a bb l1 l2 h1 h2 ih =>
    rw [List.any_cons] at ha
    cases hpa : (decide (a.ident.id = some n)) with
    | true =>
      have hid : a.ident.id = some n := of_decide_eq_true hpa
      have hw : (decide (bb.ident.id = some n)) = true :=
        decide_eq_true (h1.2 n hid)
      rw [List.any_cons, hw]
      rfl
    | false =>
      rw [hpa] at ha
      simp only [Bool.false_or] at ha
      rw [List.any_cons, ih ha]
      simp

theorem not_named_any (ds2 : List IdItem) (n : String)
    (h : n ∉ namedIds ds2) :
    (ds2.any (fun v => v.ident.id = some n)) = false := by
  simp only [List.any_eq_false, decide_eq_true_eq]
  intro v hv heq
  exact h (List.mem_filterMap.mpr ⟨v, hv, heq⟩)

theorem forall2_rItem_snoc (ds ds2 : List IdItem) (a b : IdItem)
    (h : List.Forall₂ rItem ds ds2) (hab : rItem a b) :
    List.Forall₂ rItem (ds ++ [a]) (ds2 ++ [b]) := by
  induction h with
  | nil => exact List.Forall₂.cons hab List.Forall₂.nil
  | cons h1 h2 ih => exact List.Forall₂.cons h1 ih

theorem assembleGo_ref (accIds : List Ident) (oid oty : Option String)
    (pfx0 : List String) (par0 : CValue) (rest : List IdItem)
    (rsS : List Ident) (s : Ident) (ssT : List Ident) :
    assembleGo accIds (⟨⟨false, oid, oty⟩, pfx0, par0⟩ :: rest) rsS (s :: ssT) =
      s :: assembleGo accIds rest rsS ssT := by
  simp [assembleGo]

theorem assembleGo_keep (accIds : List Ident) (n : String) (oty : Option String)
    (pfx0 : List String) (par0 : CValue) (rest : List IdItem)
    (rsS ssS : List Ident)
    (hany : (accIds.any (fun v => v.id = some n)) = true) :
    assembleGo accIds (⟨⟨true, some n, oty⟩, pfx0, par0⟩ :: rest) rsS ssS =
      (⟨true, some n, oty⟩ : Ident) :: assembleGo accIds rest rsS ssS := by
  simp [assembleGo, hany]

theorem assembleGo_acc (accIds : List Ident) (n : String) (oty : Option String)
    (pfx0 : List String) (par0 : CValue) (rest : List IdItem)
    (r : Ident) (rsT ssS : List Ident)
    (hany : (accIds.any (fun v => v.id = some n)) = false) :
    assembleGo accIds (⟨⟨true, some n, oty⟩, pfx0, par0⟩ :: rest) (r :: rsT) ssS =
      r :: assembleGo (accIds ++ [⟨true, some n, oty⟩]) rest rsT ssS := by
  simp [assembleGo, hany]

theorem assembleGo_unnamed_step (accIds : List Ident) (oty : Option String)
    (pfx0 : List String) (par0 : CValue) (rest : List IdItem)
    (r : Ident) (rsT ssS : List Ident) :
    assembleGo accIds (⟨⟨true, none, oty⟩, pfx0, par0⟩ :: rest) (r :: rsT) ssS =
      r :: assembleGo (accIds ++ [⟨true, none, oty⟩]) rest rsT ssS := by
  simp [assembleGo]

/-- The declare loop applied a second time, to the reassembled identifier
stream, accepts exactly the resolved declarations, files the searched
references unchanged (same identifiers, same paths), records redefinition
errors equal up to the mutated parent nodes, and reassembling the second
run's stream reproduces it. -/
theorem declGo_fix (items : List IdItem) :
    ∀ (items2 ds ds2 : List IdItem) (rsS ssS : List Ident),
      items2.map (fun v => v.pfx) = items.map (fun v => v.pfx) →
      items2.map (fun v => v.ident) =
        assembleGo (ds.map (fun v => v.ident)) items rsS ssS →
      List.Forall₂ rIdent (newAccepted ds items) rsS →
      (∀ w ∈ rsS, (w.id).isSome = true) →
      (namedIds ds2 ++ rsS.filterMap (fun i => i.id)).Nodup →
      List.Forall₂ rItem ds ds2 →
      ssS.length = (newSearching ds items).length →
      (∀ i ∈ ssS, i.is_declaration = false) →
      ((newAccepted ds2 items2).map (fun v => v.ident) = rsS ∧
       (newSearching ds2 items2).map (fun v => v.ident) = ssS) ∧
      ((newSearching ds2 items2).map (fun v => v.pfx) =
        (newSearching ds items).map (fun v => v.pfx) ∧
       (newErrors ds2 items2).map eProj = (newErrors ds items).map eProj) ∧
      assembleGo (ds2.map (fun v => v.ident)) items2 rsS ssS =
        items2.map (fun v => v.ident) := by
  induction items with
  | nil =>
    intro items2 ds ds2 rsS ssS h1 h2 h3 h4 h5 h6 h7 h8
    have hitems2 : items2 = [] := by
      cases items2 with
      | nil => rfl
      | cons a l => exact absurd h1 (by simp)
    subst hitems2
    rw [newAccepted_nil] at h3
    have hrs : rsS = [] := by
      cases h3
      rfl
    have hss : ssS = [] := by
      rw [newSearching_nil] at h7
      simpa using h7
    subst hrs
    subst hss
    simp [newAccepted_nil, newSearching_nil, newErrors_nil, assembleGo]
  | cons it rest ih =>
    intro items2 ds ds2 rsS ssS h1 h2 h3 h4 h5 h6 h7 h8
    obtain ⟨⟨b, oid, oty⟩, pfx0, par0⟩ := it
    cases items2 with
    | nil => exact absurd h1 (by simp)
    | cons it2 rest2 =>
      obtain ⟨⟨b2, oid2, oty2⟩, pfx2, par2⟩ := it2
      simp only [List.map_cons, List.cons.injEq] at h1
      obtain ⟨hpfx, h1t⟩ := h1
      cases b with
      | false =>
        rw [newSearching_search] at h7
        cases ssS with
        | nil => exact absurd h7 (by simp)
        | cons s ssT =>
          have hsdecl := h8 s (List.mem_cons_self _ _)
          rw [newAccepted_search] at h3
          rw [assembleGo_ref] at h2
          simp only [List.map_cons, List.cons.injEq] at h2
          obtain ⟨hident, h2t⟩ := h2
          have hb2 : b2 = false :=
            (congrArg Ident.is_declaration hident).trans hsdecl
          subst hb2
          have h7t : ssT.length = (newSearching ds rest).length := by
            simpa using h7
          have hrec := ih rest2 ds ds2 rsS ssT h1t h2t h3 h4 h5 h6 h7t
            (fun i hi => h8 i (List.mem_cons_of_mem _ hi))
          refine ⟨⟨?_, ?_⟩, ⟨?_, ?_⟩, ?_⟩
          · rw [newAccepted_search]
            exact hrec.1.1
          · rw [newSearching_search]
            simp [hident, hrec.1.2]
          · rw [newSearching_search, newSearching_search]
            simp [hpfx, hrec.2.1.1]
          · rw [newErrors_search, newErrors_search]
            exact hrec.2.1.2
          · rw [assembleGo_ref]
            simp [hident, hrec.2.2]
      | true =>
        cases oid with
        | some n =>
          by_cases hany : (ds.any (fun v => v.ident.id = some n)) = true
          · have hacc : ((ds.map (fun v => v.ident)).any
                (fun v => v.id = some n)) = true := by
              rw [any_map_ident]
              exact hany
            rw [newAccepted_drop ds n oty pfx0 par0 rest hany] at h3
            rw [newSearching_drop ds n oty pfx0 par0 rest hany] at h7
            rw [assembleGo_keep _ _ _ _ _ _ _ _ hacc] at h2
            simp only [List.map_cons, List.cons.injEq, Ident.mk.injEq] at h2
            obtain ⟨⟨rfl, rfl, rfl⟩, h2t⟩ := h2
            have hany2 := forall2_any_named n ds ds2 h6 hany
            have hrec := ih rest2 ds ds2 rsS ssS h1t h2t h3 h4 h5 h6 h7 h8
            have hacc2 : ((ds2.map (fun v => v.ident)).any
                (fun v => v.id = some n)) = true := by
              rw [any_map_ident]
              exact hany2
            refine ⟨⟨?_, ?_⟩, ⟨?_, ?_⟩, ?_⟩
            · rw [newAccepted_drop ds2 n oty2 pfx2 par2 rest2 hany2]
              exact hrec.1.1
            · rw [newSearching_drop ds2 n oty2 pfx2 par2 rest2 hany2]
              exact hrec.1.2
            · rw [newSearching_drop ds2 n oty2 pfx2 par2 rest2 hany2,
                newSearching_drop ds n oty2 pfx0 par0 rest hany]
              exact hrec.2.1.1
            · rw [newErrors_drop ds2 n oty2 pfx2 par2 rest2 hany2,
                newErrors_drop ds n oty2 pfx0 par0 rest hany]
              simp [eProj, hpfx, hrec.2.1.2]
            · rw [assembleGo_keep _ _ _ _ _ _ _ _ hacc2]
              simp [hrec.2.2]
          · have hf : (ds.any (fun v => v.ident.id = some n)) = false := by
              simpa using hany
            rw [newAccepted_accept ds n oty pfx0 par0 rest hf] at h3
            rcases List.forall₂_cons_left_iff.mp h3 with ⟨r, rsT, hr, h3t, rfl⟩
            have hacc : ((ds.map (fun v => v.ident)).any
                (fun v => v.id = some n)) = false := by
              rw [any_map_ident]
              exact hf
            rw [assembleGo_acc _ _ _ _ _ _ _ _ _ hacc] at h2
            simp only [List.map_cons, List.cons.injEq] at h2
            obtain ⟨hident, h2t⟩ := h2
            have hrid : r.id = some n := hr.2 n rfl
            have hb2 : b2 = true :=
              (congrArg Ident.is_declaration hident).trans hr.1
            subst hb2
            have ho2 : oid2 = some n :=
              (congrArg Ident.id hident).trans hrid
            subst ho2
            have hn2 : n ∉ namedIds ds2 := by
              intro hmem
              have hdisj := (List.nodup_append.mp h5).2.2
              exact hdisj hmem (by simp [List.filterMap_cons, hrid])
            have hany2 := not_named_any ds2 n hn2
            have h5t : (namedIds
                (ds2 ++ [(⟨⟨true, some n, oty2⟩, pfx2, par2⟩ : IdItem)]) ++
                rsT.filterMap (fun i => i.id)).Nodup := by
              have hkeys : namedIds
                  (ds2 ++ [(⟨⟨true, some n, oty2⟩, pfx2, par2⟩ : IdItem)]) =
                  namedIds ds2 ++ [n] := by
                simp [namedIds, List.filterMap_append, List.filterMap_cons]
              rw [hkeys, List.append_assoc]
              have h5r : (namedIds ds2 ++
                  (n :: rsT.filterMap (fun i => i.id))).Nodup := by
                simpa [List.filterMap_cons, hrid] using h5
              simpa using h5r
            have h6t : List.Forall₂ rItem
                (ds ++ [(⟨⟨true, some n, oty⟩, pfx0, par0⟩ : IdItem)])
                (ds2 ++ [(⟨⟨true, some n, oty2⟩, pfx2, par2⟩ : IdItem)]) :=
              forall2_rItem_snoc ds ds2 ⟨⟨true, some n, oty⟩, pfx0, par0⟩
                ⟨⟨true, some n, oty2⟩, pfx2, par2⟩ h6 ⟨rfl, fun m h => h⟩
            rw [newSearching_accept ds n oty pfx0 par0 rest hf] at h7
            have h2t2 : rest2.map (fun v => v.ident) =
                assembleGo ((ds ++ [(⟨⟨true, some n, oty⟩, pfx0, par0⟩ : IdItem)]).map
                  (fun v => v.ident)) rest rsT ssS := by
              simpa using h2t
            have hrec := ih rest2
              (ds ++ [(⟨⟨true, some n, oty⟩, pfx0, par0⟩ : IdItem)])
              (ds2 ++ [(⟨⟨true, some n, oty2⟩, pfx2, par2⟩ : IdItem)])
              rsT ssS h1t h2t2 h3t
              (fun w hw => h4 w (List.mem_cons_of_mem _ hw)) h5t h6t h7 h8
            have hacc2 : ((ds2.map (fun v => v.ident)).any
                (fun v => v.id = some n)) = false := by
              rw [any_map_ident]
              exact hany2
            refine ⟨⟨?_, ?_⟩, ⟨?_, ?_⟩, ?_⟩
            · rw [newAccepted_accept ds2 n oty2 pfx2 par2 rest2 hany2]
              simp only [List.map_cons]
              rw [hrec.1.1]
              exact congrArg (fun i => i :: rsT) hident
            · rw [newSearching_accept ds2 n oty2 pfx2 par2 rest2 hany2]
              exact hrec.1.2
            · rw [newSearching_accept ds2 n oty2 pfx2 par2 rest2 hany2,
                newSearching_accept ds n oty pfx0 par0 rest hf]
              exact hrec.2.1.1
            · rw [newErrors_accept ds2 n oty2 pfx2 par2 rest2 hany2,
                newErrors_accept ds n oty pfx0 par0 rest hf]
              exact hrec.2.1.2
            · rw [assembleGo_acc _ _ _ _ _ _ _ _ _ hacc2]
              have ht := hrec.2.2
              simp only [List.map_append, List.map_cons, List.map_nil] at ht
              rw [ht]
              simp only [List.map_cons]
              exact (congrArg
                (fun i => i :: rest2.map (fun v => v.ident)) hident).symm
        | none =>
          rw [newAccepted_unnamed ds oty pfx0 par0 rest] at h3
          rcases List.forall₂_cons_left_iff.mp h3 with ⟨r, rsT, hr, h3t, rfl⟩
          rw [assembleGo_unnamed_step] at h2
          simp only [List.map_cons, List.cons.injEq] at h2
          obtain ⟨hident, h2t⟩ := h2
          obtain ⟨f, hf⟩ := Option.isSome_iff_exists.mp
            (h4 r (List.mem_cons_self _ _))
          have hb2 : b2 = true :=
            (congrArg Ident.is_declaration hident).trans hr.1
          subst hb2
          have ho2 : oid2 = some f :=
            (congrArg Ident.id hident).trans hf
          subst ho2
          have hn2 : f ∉ namedIds ds2 := by
            intro hmem
            have hdisj := (List.nodup_append.mp h5).2.2
            exact hdisj hmem (by simp [List.filterMap_cons, hf])
          have hany2 := not_named_any ds2 f hn2
          have h5t : (namedIds
              (ds2 ++ [(⟨⟨true, some f, oty2⟩, pfx2, par2⟩ : IdItem)]) ++
              rsT.filterMap (fun i => i.id)).Nodup := by
            have hkeys : namedIds
                (ds2 ++ [(⟨⟨true, some f, oty2⟩, pfx2, par2⟩ : IdItem)]) =
                namedIds ds2 ++ [f] := by
              simp [namedIds, List.filterMap_append, List.filterMap_cons]
            rw [hkeys, List.append_assoc]
            have h5r : (namedIds ds2 ++
                (f :: rsT.filterMap (fun i => i.id))).Nodup := by
              simpa [List.filterMap_cons, hf] using h5
            simpa using h5r
          have h6t : List.Forall₂ rItem
              (ds ++ [(⟨⟨true, none, oty⟩, pfx0, par0⟩ : IdItem)])
              (ds2 ++ [(⟨⟨true, some f, oty2⟩, pfx2, par2⟩ : IdItem)]) :=
            forall2_rItem_snoc ds ds2 ⟨⟨true, none, oty⟩, pfx0, par0⟩
              ⟨⟨true, some f, oty2⟩, pfx2, par2⟩ h6 ⟨rfl, fun m h => nomatch h⟩
          rw [newSearching_unnamed ds oty pfx0 par0 rest] at h7
          have h2t2 : rest2.map (fun v => v.ident) =
              assembleGo ((ds ++ [(⟨⟨true, none, oty⟩, pfx0, par0⟩ : IdItem)]).map
                (fun v => v.ident)) rest rsT ssS := by
            simpa using h2t
          have hrec := ih rest2
            (ds ++ [(⟨⟨true, none, oty⟩, pfx0, par0⟩ : IdItem)])
            (ds2 ++ [(⟨⟨true, some f, oty2⟩, pfx2, par2⟩ : IdItem)])
            rsT ssS h1t h2t2 h3t
            (fun w hw => h4 w (List.mem_cons_of_mem _ hw)) h5t h6t h7 h8
          have hacc2 : ((ds2.map (fun v => v.ident)).any
              (fun v => v.id = some f)) = false := by
            rw [any_map_ident]
            exact hany2
          refine ⟨⟨?_, ?_⟩, ⟨?_, ?_⟩, ?_⟩
          · rw [newAccepted_accept ds2 f oty2 pfx2 par2 rest2 hany2]
            simp only [List.map_cons]
            rw [hrec.1.1]
            exact congrArg (fun i => i :: rsT) hident
          · rw [newSearching_accept ds2 f oty2 pfx2 par2 rest2 hany2]
            exact hrec.1.2
          · rw [newSearching_accept ds2 f oty2 pfx2 par2 rest2 hany2,
              newSearching_unnamed ds oty pfx0 par0 rest]
            exact hrec.2.1.1
          · rw [newErrors_accept ds2 f oty2 pfx2 par2 rest2 hany2,
              newErrors_unnamed ds oty pfx0 par0 rest]
            exact hrec.2.1.2
          · rw [assembleGo_acc _ _ _ _ _ _ _ _ _ hacc2]
            have ht := hrec.2.2
            simp only [List.map_append, List.map_cons, List.map_nil] at ht
            rw [ht]
            simp only [List.map_cons]
            exact (congrArg
              (fun i => i :: rest2.map (fun v => v.ident)) hident).symm

/-! Tree-level lemmas: discovery counts identifiers, the structural mutation
consumes exactly the stream prefix while preserving every discovery path, and
writing a tree's own identifier stream back is the identity. -/

theorem zipIds_long : ∀ (rs ns : List Ident), rs.length ≤ ns.length →
    zipIds rs ns = (ns.take rs.length, ns.drop rs.length)
  | [], ns, _ => by simp [zipIds]
  | r :: rs, [], h => by simp at h
  | r :: rs, n :: ns, h => by
    simp only [List.length_cons] at h
    simp [zipIds, zipIds_long rs ns (by omega)]

theorem map_ident_mk (pfx : List String) (p : CValue) :
    ∀ l : List Ident,
      ((l.map (fun i => (⟨i, pfx, p⟩ : IdItem))).map (fun w => w.ident)) = l
  | [] => rfl
  | i :: rest => by simp [map_ident_mk pfx p rest]

theorem map_pfx_mk (pfx : List String) (p : CValue) :
    ∀ l : List Ident,
      ((l.map (fun i => (⟨i, pfx, p⟩ : IdItem))).map (fun w => w.pfx)) =
        l.map (fun x => pfx)
  | [] => rfl
  | i :: rest => by simp [map_pfx_mk pfx p rest]

theorem map_const_len {α β γ : Type} (c : γ) :
    ∀ (l1 : List α) (l2 : List β), l1.length = l2.length →
      l1.map (fun x => c) = l2.map (fun x => c)
  | [], [], _ => rfl
  | [], b :: l2, h => by simp at h
  | a :: l1, [], h => by simp at h
  | a :: l1, b :: l2, h => by
    simp only [List.length_cons] at h
    simp [map_const_len c l1 l2 (by omega)]

mutual

theorem iterV_nIds (pfx : List String) (par : CValue) :
    ∀ v : CValue, (iterV pfx par v).length = nIdsV v
  | CValue.vid i => by simp [iterV, nIdsV]
  | CValue.vlam rs => by simp [iterV, nIdsV]
  | CValue.vlist xs => iterL_nIds pfx (CValue.vlist xs) 0 xs
  | CValue.vdict kvs => iterD_nIds pfx (CValue.vdict kvs) kvs
  | CValue.vstr t => by simp [iterV, nIdsV]
  | CValue.vint n => by simp [iterV, nIdsV]
  | CValue.vbool b => by simp [iterV, nIdsV]
  | CValue.vnone => by simp [iterV, nIdsV]

theorem iterL_nIds (pfx : List String) (own : CValue) (i : Nat) :
    ∀ xs : List CValue, (iterL pfx own i xs).length = nIdsL xs
  | [] => by simp [iterL, nIdsL]
  | x :: rest => by
    simp only [iterL, nIdsL, List.length_append]
    rw [iterV_nIds (pfx ++ [toString i]) own x, iterL_nIds pfx own (i + 1) rest]

theorem iterD_nIds (pfx : List String) (own : CValue) :
    ∀ kvs : List (String × CValue), (iterD pfx own kvs).length = nIdsD kvs
  | [] => by simp [iterD, nIdsD]
  | (k, v) :: rest => by
    simp only [iterD, nIdsD, List.length_append]
    rw [iterV_nIds (pfx ++ [k]) own v, iterD_nIds pfx own rest]

end

mutual

theorem setV_stream (pfx : List String) (par par2 : CValue) :
    ∀ (v : CValue) (ns : List Ident), nIdsV v ≤ ns.length →
      (setV v ns).2 = ns.drop (nIdsV v) ∧
      (iterV pfx par2 (setV v ns).1).map (fun w => w.ident) =
        ns.take (nIdsV v) ∧
      (iterV pfx par2 (setV v ns).1).map (fun w => w.pfx) =
        (iterV pfx par v).map (fun w => w.pfx)
  | CValue.vid i, ns => by
    intro h
    cases ns with
    | nil => simp [nIdsV] at h
    | cons n rest => simp [setV, iterV, nIdsV]
  | CValue.vlam rs, ns => by
    intro h
    simp only [nIdsV] at h
    have hz := zipIds_long rs ns h
    simp only [setV, hz, iterV, nIdsV]
    refine ⟨by trivial, ?_, ?_⟩
    · exact map_ident_mk pfx (normPar par2) (ns.take rs.length)
    · rw [map_pfx_mk pfx (normPar par2) (ns.take rs.length),
        map_pfx_mk pfx (normPar par) rs]
      exact map_const_len pfx _ _ (by simp [List.length_take]; omega)
  | CValue.vlist xs, ns => by
    intro h
    exact setL_stream pfx (CValue.vlist xs)
      (CValue.vlist (setL xs ns).1) xs 0 ns h
  | CValue.vdict kvs, ns => by
    intro h
    exact setD_stream pfx (CValue.vdict kvs)
      (CValue.vdict (setD kvs ns).1) kvs ns h
  | CValue.vstr t, ns => by
    intro h
    simp [setV, iterV, nIdsV]
  | CValue.vint n, ns => by
    intro h
    simp [setV, iterV, nIdsV]
  | CValue.vbool b, ns => by
    intro h
    simp [setV, iterV, nIdsV]
  | CValue.vnone, ns => by
    intro h
    simp [setV, iterV, nIdsV]

theorem setL_stream (pfx : List String) (own own2 : CValue) :
    ∀ (xs : List CValue) (i : Nat) (ns : List Ident), nIdsL xs ≤ ns.length →
      (setL xs ns).2 = ns.drop (nIdsL xs) ∧
      (iterL pfx own2 i (setL xs ns).1).map (fun w => w.ident) =
        ns.take (nIdsL xs) ∧
      (iterL pfx own2 i (setL xs ns).1).map (fun w => w.pfx) =
        (iterL pfx own i xs).map (fun w => w.pfx)
  | [], i, ns => by
    intro h
    simp [setL, iterL, nIdsL]
  | x :: rest, i, ns => by
    intro h
    simp only [nIdsL] at h
    have hx := setV_stream (pfx ++ [toString i]) own own2 x ns (by omega)
    have hrest := setL_stream pfx own own2 rest (i + 1) (setV x ns).2 (by
      rw [hx.1]
      simp only [List.length_drop]
      omega)
    simp only [setL, iterL, nIdsL, List.map_append]
    refine ⟨?_, ?_, ?_⟩
    · rw [hrest.1, hx.1, List.drop_drop, Nat.add_comm]
    · rw [hx.2.1, hrest.2.1, hx.1, List.take_add]
    · rw [hx.2.2, hrest.2.2]

theorem setD_stream (pfx : List String) (own own2 : CValue) :
    ∀ (kvs : List (String × CValue)) (ns : List Ident),
      nIdsD kvs ≤ ns.length →
      (setD kvs ns).2 = ns.drop (nIdsD kvs) ∧
      (iterD pfx own2 (setD kvs ns).1).map (fun w => w.ident) =
        ns.take (nIdsD kvs) ∧
      (iterD pfx own2 (setD kvs ns).1).map (fun w => w.pfx) =
        (iterD pfx own kvs).map (fun w => w.pfx)
  | [], ns => by
    intro h
    simp [setD, iterD, nIdsD]
  | (k, v) :: rest, ns => by
    intro h
    simp only [nIdsD] at h
    have hx := setV_stream (pfx ++ [k]) own own2 v ns (by omega)
    have hrest := setD_stream pfx own own2 rest (setV v ns).2 (by
      rw [hx.1]
      simp only [List.length_drop]
      omega)
    simp only [setD, iterD, nIdsD, List.map_append]
    refine ⟨?_, ?_, ?_⟩
    · rw [hrest.1, hx.1, List.drop_drop, Nat.add_comm]
    · rw [hx.2.1, hrest.2.1, hx.1, List.take_add]
    · rw [hx.2.2, hrest.2.2]

end

mutual

theorem setV_own (pfx : List String) (par : CValue) :
    ∀ (v : CValue) (extra : List Ident),
      setV v ((iterV pfx par v).map (fun w => w.ident) ++ extra) = (v, extra)
  | CValue.vid i, extra => by simp [iterV, setV]
  | CValue.vlam rs, extra => by
    simp only [iterV, setV]
    rw [map_ident_mk pfx (normPar par) rs]
    rw [zipIds_long rs (rs ++ extra) (by simp)]
    simp [List.take_left, List.drop_left]
  | CValue.vlist xs, extra => by
    have h := setL_own pfx (CValue.vlist xs) xs 0 extra
    simp only [iterV, setV, h]
  | CValue.vdict kvs, extra => by
    have h := setD_own pfx (CValue.vdict kvs) kvs extra
    simp only [iterV, setV, h]
  | CValue.vstr t, extra => by simp [iterV, setV]
  | CValue.vint n, extra => by simp [iterV, setV]
  | CValue.vbool b, extra => by simp [iterV, setV]
  | CValue.vnone, extra => by simp [iterV, setV]

theorem setL_own (pfx : List String) (own : CValue) :
    ∀ (xs : List CValue) (i : Nat) (extra : List Ident),
      setL xs ((iterL pfx own i xs).map (fun w => w.ident) ++ extra) =
        (xs, extra)
  | [], i, extra => by simp [iterL, setL]
  | x :: rest, i, extra => by
    simp only [iterL, List.map_append, List.append_assoc, setL]
    rw [setV_own (pfx ++ [toString i]) own x
      (((iterL pfx own (i + 1) rest).map (fun w => w.ident)) ++ extra)]
    simp only []
    rw [setL_own pfx own rest (i + 1) extra]

theorem setD_own (pfx : List String) (own : CValue) :
    ∀ (kvs : List (String × CValue)) (extra : List Ident),
      setD kvs ((iterD pfx own kvs).map (fun w => w.ident) ++ extra) =
        (kvs, extra)
  | [], extra => by simp [iterD, setD]
  | (k, v) :: rest, extra => by
    simp only [iterD, List.map_append, List.append_assoc, setD]
    rw [setV_own (pfx ++ [k]) own v
      (((iterD pfx own rest).map (fun w => w.ident)) ++ extra)]
    simp only []
    rw [setD_own pfx own rest extra]

end

theorem assembleGo_length (l : List IdItem) :
    ∀ (accIds rsS ssS : List Ident),
      (assembleGo accIds l rsS ssS).length = l.length := by
  induction l with
  | nil => intro accIds rsS ssS; rfl
  | cons it rest ih =>
    intro accIds rsS ssS
    obtain ⟨⟨b, oid, oty⟩, pfx0, par0⟩ := it
    cases b with
    | false =>
      cases ssS with
      | nil => simp [assembleGo, ih]
      | cons t ssT => simp [assembleGo, ih]
    | true =>
      cases oid with
      | some n =>
        by_cases hany : (accIds.any (fun v => v.id = some n)) = true
        · simp [assembleGo, hany, ih]
        · have hfa : (accIds.any (fun v => v.id = some n)) = false := by
            simpa using hany
          cases rsS with
          | nil => simp [assembleGo, hfa, ih]
          | cons r rsT => simp [assembleGo, hfa, ih]
      | none =>
        cases rsS with
        | nil => simp [assembleGo, ih]
        | cons r rsT => simp [assembleGo, ih]

theorem searchGo_maps (ds : List IdItem) :
    ∀ l : List IdItem,
      ((searchGo ds [] [] l).1.map (fun v => v.ident.is_declaration) =
        l.map (fun v => v.ident.is_declaration)) ∧
      ((searchGo ds [] [] l).1.map (fun v => v.pfx) =
        l.map (fun v => v.pfx)) := by
  intro l
  induction l with
  | nil => simp [searchGo]
  | cons it rest ih =>
    have hrun : searchGo ds [] [] (it :: rest) =
        ([] ++ [(searchStep ds it).1] ++ (searchGo ds [] [] rest).1,
         [] ++ (searchStep ds it).2 ++ (searchGo ds [] [] rest).2) := by
      simp only [searchGo]
      have hs := searchGo_shift rest ds ([] ++ [(searchStep ds it).1])
        ([] ++ (searchStep ds it).2)
      rw [hs]
    rw [hrun]
    constructor
    · simp [(searchStep_pt ds it).2, ih.1]
    · simp [(searchStep_pt ds it).1, ih.2]

theorem searchGo_len (ds l : List IdItem) :
    (searchGo ds [] [] l).1.length = l.length := by
  have h := congrArg List.length (searchGo_maps ds l).2
  simpa using h

theorem idPassCore_fst_length (items : List IdItem) :
    ((idPassCore items).1).length = items.length := by
  show (assembleGo [] items _ _).length = items.length
  exact assembleGo_length items [] _ _

/-- do_id_pass applied to a flattened discovery list whose identifiers are
the previous pass's output (same paths) reproduces that output and appends
errors equal up to the mutated parent nodes. -/
theorem idPassCore_fix (items items2 : List IdItem)
    (hpfx : items2.map (fun v => v.pfx) = items.map (fun v => v.pfx))
    (hident : items2.map (fun v => v.ident) = (idPassCore items).1) :
    (idPassCore items2).1 = items2.map (fun v => v.ident) ∧
    ((idPassCore items2).2).map eProj = ((idPassCore items).2).map eProj := by
  rcases hd : declGo [] [] [] items with ⟨dAcc, dSs, dEs⟩
  have hnodup : (namedIds dAcc).Nodup := by
    have h := declGo_namedIds_nodup items [] [] [] (by simp [namedIds])
    rw [hd] at h
    exact h
  have hssf : ∀ v ∈ dSs, v.ident.is_declaration = false := by
    have h := declGo_ss_false items [] [] [] (by simp)
    rw [hd] at h
    exact h
  obtain ⟨tail, htail, hf2⟩ := resolveGo_forall2 dAcc []
  have hrs : resolveGo [] dAcc = tail := by simpa using htail
  have hids := resolveGo_ids dAcc [] (by simp)
    (by simpa [namedIds] using hnodup)
  rw [hrs] at hids
  have hNA : newAccepted [] items = dAcc := by simp [newAccepted, hd]
  have hNS : newSearching [] items = dSs := by simp [newSearching, hd]
  have hNE : newErrors [] items = dEs := by simp [newErrors, hd]
  have h2 : items2.map (fun v => v.ident) =
      assembleGo (([] : List IdItem).map (fun v => v.ident)) items
        (tail.map (fun v => v.ident))
        (((searchGo tail [] [] dSs).1).map (fun v => v.ident)) := by
    rw [hident]
    simp [idPassCore, hd, hrs]
  have h3 : List.Forall₂ rIdent (newAccepted [] items)
      (tail.map (fun v => v.ident)) := by
    rw [hNA]
    exact List.forall₂_map_right_iff.mpr hf2
  have h4 : ∀ w ∈ tail.map (fun v => v.ident), (w.id).isSome = true := by
    intro w hw
    obtain ⟨v, hv, rfl⟩ := List.mem_map.mp hw
    exact hids.1 v hv
  have h5 : (namedIds ([] : List IdItem) ++
      (tail.map (fun v => v.ident)).filterMap (fun i => i.id)).Nodup := by
    simpa [namedIds, List.filterMap_map] using hids.2
  have h7 : (((searchGo tail [] [] dSs).1).map (fun v => v.ident)).length =
      (newSearching [] items).length := by
    rw [hNS]
    simp [searchGo_len tail dSs]
  have h8 : ∀ i ∈ ((searchGo tail [] [] dSs).1).map (fun v => v.ident),
      i.is_declaration = false := by
    intro i hi
    obtain ⟨w, hw, rfl⟩ := List.mem_map.mp hi
    have hmm : w.ident.is_declaration ∈
        (dSs.map (fun v => v.ident.is_declaration)) := by
      rw [← (searchGo_maps tail dSs).1]
      exact List.mem_map_of_mem _ hw
    obtain ⟨u, hu, hue⟩ := List.mem_map.mp hmm
    rw [← hue]
    exact hssf u hu
  have hfix := declGo_fix items items2 [] [] (tail.map (fun v => v.ident))
    (((searchGo tail [] [] dSs).1).map (fun v => v.ident))
    hpfx h2 h3 h4 h5 List.Forall₂.nil h7 h8
  rcases hd2 : declGo [] [] [] items2 with ⟨dAcc2, dSs2, dEs2⟩
  have hNA2 : newAccepted [] items2 = dAcc2 := by simp [newAccepted, hd2]
  have hNS2 : newSearching [] items2 = dSs2 := by simp [newSearching, hd2]
  have hNE2 : newErrors [] items2 = dEs2 := by simp [newErrors, hd2]
  have hA2 : dAcc2.map (fun v => v.ident) = tail.map (fun v => v.ident) := by
    rw [← hNA2]
    exact hfix.1.1
  have hS2 : dSs2.map (fun v => v.ident) =
      ((searchGo tail [] [] dSs).1).map (fun v => v.ident) := by
    rw [← hNS2]
    exact hfix.1.2
  have hSp2 : dSs2.map (fun v => v.pfx) = dSs.map (fun v => v.pfx) := by
    rw [← hNS2, ← hNS]
    exact hfix.2.1.1
  have hE2 : dEs2.map eProj = dEs.map eProj := by
    rw [← hNE2, ← hNE]
    exact hfix.2.1.2
  have hsome2 : ∀ v ∈ dAcc2, (v.ident.id).isSome = true := by
    intro v hv
    have hmem : v.ident ∈ tail.map (fun v => v.ident) := by
      rw [← hA2]
      exact List.mem_map_of_mem _ hv
    exact h4 _ hmem
  have hnoop2 : resolveGo [] dAcc2 = dAcc2 := by
    have h := resolveGo_noop dAcc2 [] hsome2
    simpa using h
  have hsfix := searchGo_fix dSs dSs2 tail dAcc2 hA2 hids.1 hS2 hSp2
  have hres1 : (idPassCore items2).1 = assembleGo [] items2
      ((resolveGo [] dAcc2).map (fun v => v.ident))
      (((searchGo (resolveGo [] dAcc2) [] [] dSs2).1).map
        (fun v => v.ident)) := by
    unfold idPassCore
    rw [hd2]
  have hres2 : (idPassCore items2).2 =
      dEs2 ++ (searchGo (resolveGo [] dAcc2) [] [] dSs2).2 := by
    unfold idPassCore
    rw [hd2]
  have hr1e : (idPassCore items).2 =
      dEs ++ (searchGo (resolveGo [] dAcc) [] [] dSs).2 := by
    unfold idPassCore
    rw [hd]
  constructor
  · rw [hres1, hnoop2, hsfix.1, hS2, hA2]
    simpa using hfix.2.2
  · rw [hres2, hr1e, hnoop2, hrs]
    simp only [List.map_append]
    rw [hE2, hsfix.2]

/-- do_id_pass run a second time over the mapping it mutated reproduces the
mapping exactly and appends the same errors up to the mutated parent nodes
carried inside the records. -/
theorem doIdPassD_fix (m : List (String × CValue)) :
    (doIdPassD (doIdPassD m).1).1 = (doIdPassD m).1 ∧
    ((doIdPassD (doIdPassD m).1).2).map eProj =
      ((doIdPassD m).2).map eProj := by
  have hFlen : ((idPassCore (iterD [] (CValue.vdict m) m)).1).length =
      nIdsD m := by
    rw [idPassCore_fst_length, iterD_nIds]
  have hlen : nIdsD m ≤
      ((idPassCore (iterD [] (CValue.vdict m) m)).1).length := by
    rw [hFlen]
  have hstream := setD_stream [] (CValue.vdict m)
    (CValue.vdict (setD m ((idPassCore (iterD [] (CValue.vdict m) m)).1)).1)
    m ((idPassCore (iterD [] (CValue.vdict m) m)).1) hlen
  have hident2 : (iterD []
      (CValue.vdict (setD m ((idPassCore (iterD [] (CValue.vdict m) m)).1)).1)
      (setD m ((idPassCore (iterD [] (CValue.vdict m) m)).1)).1).map
        (fun v => v.ident) =
      (idPassCore (iterD [] (CValue.vdict m) m)).1 := by
    rw [hstream.2.1, ← hFlen, List.take_length]
  have hcore := idPassCore_fix (iterD [] (CValue.vdict m) m)
    (iterD []
      (CValue.vdict (setD m ((idPassCore (iterD [] (CValue.vdict m) m)).1)).1)
      (setD m ((idPassCore (iterD [] (CValue.vdict m) m)).1)).1)
    hstream.2.2 hident2
  constructor
  · show (setD (setD m ((idPassCore (iterD [] (CValue.vdict m) m)).1)).1
      ((idPassCore (iterD []
        (CValue.vdict (setD m
          ((idPassCore (iterD [] (CValue.vdict m) m)).1)).1)
        (setD m ((idPassCore (iterD [] (CValue.vdict m) m)).1)).1)).1)).1 =
      (setD m ((idPassCore (iterD [] (CValue.vdict m) m)).1)).1
    rw [hcore.1]
    have hown := setD_own []
      (CValue.vdict (setD m ((idPassCore (iterD [] (CValue.vdict m) m)).1)).1)
      (setD m ((idPassCore (iterD [] (CValue.vdict m) m)).1)).1 []
    rw [List.append_nil] at hown
    rw [hown]
  · show ((idPassCore (iterD []
        (CValue.vdict (setD m
          ((idPassCore (iterD [] (CValue.vdict m) m)).1)).1)
        (setD m ((idPassCore (iterD [] (CValue.vdict m) m)).1)).1)).2).map
          eProj =
      ((idPassCore (iterD [] (CValue.vdict m) m)).2).map eProj
    exact hcore.2

/-- The per-process component cache (lines 48-79) is transparent: whenever
every cached entry agrees with the registry, get_component answers exactly
what the registry answers, and leaves the cache in an agreeing state. -/
theorem get_component_transparent (reg : String → Option Component)
    (cache : List (String × Component)) (d : String)
    (h : cacheConsistent reg cache) :
    (get_component reg cache d).1 = reg d ∧
    cacheConsistent reg (get_component reg cache d).2 := by
  unfold get_component
  cases hfind : cache.find? (fun kv => kv.1 = d) with
  | some kv =>
    have hmem := List.mem_of_find?_eq_some hfind
    have hkey : kv.1 = d := by simpa using List.find?_some hfind
    have hreg := h kv hmem
    constructor
    · rw [← hkey, hreg]
    · simpa using h
  | none =>
    cases hreg : reg d with
    | some c =>
      constructor
      · simp
      · intro kv hkv
        rcases List.mem_append.mp hkv with hkv | hkv
        · exact h kv hkv
        · simp only [List.mem_singleton] at hkv
          subst hkv
          simpa using hreg
    | none =>
      constructor
      · simp [hreg]
      · simpa using h

def c8m : List (String × CValue) :=
  [("light", CValue.vdict
      [("id", CValue.vid ⟨true, some "led", some "LightState"⟩)]),
   ("automation", CValue.vlist
      [CValue.vid ⟨false, none, some "LightState"⟩,
       CValue.vlam [⟨false, some "led", none⟩]])]

/-- C8: Running the pipeline twice on the same input and the same registry
responses yields the same outcome: the memoised component lookups are
transparent (a consistent cache answers exactly what the registry answers
and stays consistent), and do_id_pass run again over the mapping whose
identifier nodes it mutated in place reproduces that mapping exactly and
appends equal error records up to the mutated parent nodes they carry. -/
theorem pipeline_second_run_unchanged (reg : String → Option Component)
    (cache : List (String × Component)) (d : String)
    (m : List (String × CValue))
    (h : cacheConsistent reg cache) :
    ((get_component reg cache d).1 = reg d ∧
      cacheConsistent reg (get_component reg cache d).2) ∧
    ((doIdPassD (doIdPassD m).1).1 = (doIdPassD m).1 ∧
      ((doIdPassD (doIdPassD m).1).2).map eProj =
        ((doIdPassD m).2).map eProj) :=
  ⟨get_component_transparent reg cache d h, doIdPassD_fix m⟩

/-- Witness for C8 at a concrete registry, cache and mapping containing a
declaration, a typed reference and a lambda requirement. -/
theorem pipeline_second_run_unchanged_witness :
    cacheConsistent (fun x => (none : Option Component)) [] ∧
    (((get_component (fun x => (none : Option Component)) [] "sensor").1 =
        (fun x => (none : Option Component)) "sensor" ∧
      cacheConsistent (fun x => (none : Option Component))
        (get_component (fun x => (none : Option Component)) [] "sensor").2) ∧
     ((doIdPassD (doIdPassD c8m).1).1 = (doIdPassD c8m).1 ∧
      ((doIdPassD (doIdPassD c8m).1).2).map eProj =
        ((doIdPassD c8m).2).map eProj)) := by
  refine ⟨?_, ?_⟩
  · intro kv hkv
    cases hkv
  · exact pipeline_second_run_unchanged (fun x => (none : Option Component))
      [] "sensor" c8m (fun kv hkv => by cases hkv)

end Esphome
